import Mathlib

/-!
Verification of the bit-accumulator library (bit-granular reader/writer over a
byte stream).  The Rust sources are shallowly embedded: u64 values are `Nat`
taken modulo `2 ^ 64` where overflow matters, `usize` subtraction is modelled
with release-mode wrapping semantics, byte sources and sinks are `List Nat`
(each element a byte `< 256`), and fallible operations return an
`Except BitErr` result paired with the mutated state (Rust's `?` propagates
the error while `self` keeps the state it had at the early return).
-/

deriving instance DecidableEq for Except

namespace Bitio

/-- Modulus of a 64-bit machine word. -/
def U64 : Nat := 2 ^ 64

/-- Modulus of a 32-bit machine word. -/
def U32 : Nat := 2 ^ 32

/-- Rust `u64` shift left as compiled in release mode (`<<` masks the shift
amount to the low 6 bits, the result wraps modulo `2^64`); this is also the
semantics of `u64::wrapping_shl`. -/
def wrapShl (x k : Nat) : Nat := (x <<< (k % 64)) % U64

/-- Rust `u64` shift right in release mode (shift amount masked to 6 bits). -/
def wrapShr (x k : Nat) : Nat := x >>> (k % 64)

/-- Rust `usize` subtraction with release-mode wrapping on underflow. -/
def usizeSub (a b : Nat) : Nat := (a + U64 - b) % U64

/-- Rust `u32` subtraction with release-mode wrapping on underflow. -/
def u32Sub (a b : Nat) : Nat := (a + U32 - b) % U32

/-- The two-valued bit-order policy (`ByteOrder` in the source). -/
inductive ByteOrder where
  | bigEndian
  | littleEndian
deriving DecidableEq, Repr

/-- Error taxonomy of the library (`BitReadWriteError`). -/
inductive BitErr where
  | invalidBitCount (n : Nat)
  | unexpectedEof
  | unalignedAccess
deriving DecidableEq, Repr

/-- State of a `BitReader<R>`: the bit order, the not-yet-consumed bytes of
the underlying source, and the accumulator (`bits_buffer`, `bits_in_buffer`). -/
structure RState where
  byteOrder : ByteOrder
  input : List Nat
  bits_buffer : Nat
  bits_in_buffer : Nat
deriving DecidableEq, Repr

/-- One iteration of the byte-merging loop of `put_into_bits_buffer`: shift a
newly read byte to its slot and or it into the accumulator, then bump the bit
count (capped at 64 by the `.min(64)` in the source). -/
def mergeByte (s : RState) (b : Nat) : RState :=
  let shift : Nat :=
    match s.byteOrder with
    | .bigEndian => u32Sub (u32Sub 64 8) (s.bits_in_buffer % U32)
    | .littleEndian => s.bits_in_buffer % U32
  { s with
    bits_buffer := s.bits_buffer ||| wrapShl b shift
    bits_in_buffer := min (s.bits_in_buffer + 8) 64 }

/-- Number of source bytes `put_into_bits_buffer` decides to pull for a
request of `n` bits: `ceil(saturating (n - bits_in_buffer) / 8)`, capped at
the free whole-byte capacity of the accumulator. -/
def bytesNeededFor (n : Nat) (s : RState) : Nat :=
  min ((n - s.bits_in_buffer + 7) / 8) (usizeSub 64 s.bits_in_buffer / 8)

/-- `BitReader::put_into_bits_buffer`: pull the computed number of bytes from
the source and merge them into the accumulator.  A short read consumes the
bytes the source could still supply but returns `UnexpectedEof` before the
merge loop runs, so nothing reaches the accumulator. -/
def putIntoBitsBuffer (n : Nat) (s : RState) : Except BitErr Unit × RState :=
  let bytesNeeded := bytesNeededFor n s
  if bytesNeeded > 0 then
    let got := min bytesNeeded s.input.length
    let taken := s.input.take got
    let s1 := { s with input := s.input.drop got }
    if got < bytesNeeded then (.error .unexpectedEof, s1)
    else (.ok (), taken.foldl mergeByte s1)
  else (.ok (), s)

/-- `BitReader::get_from_bits_buffer`: extract `n` bits from the occupied edge
of the accumulator and, when `take` is set, discard them.  The Rust function
always returns `Ok`, so no error channel is modelled. -/
def getFromBitsBuffer (n : Nat) (take : Bool) (s : RState) : Nat × RState :=
  let bit_value : Nat :=
    match s.byteOrder with
    | .bigEndian => wrapShr s.bits_buffer (64 - n)
    | .littleEndian =>
        s.bits_buffer &&& (if n == 64 then U64 - 1 else (1 <<< n) - 1)
  if take then
    let buffer :=
      if n == 64 then 0
      else
        match s.byteOrder with
        | .bigEndian => wrapShl s.bits_buffer n
        | .littleEndian => s.bits_buffer >>> n
    (bit_value,
      { s with bits_buffer := buffer
               bits_in_buffer := usizeSub s.bits_in_buffer n })
  else (bit_value, s)

/-- `BitReader::read_bits`: validate the width, fill, then extract-and-consume. -/
def readBits (n : Nat) (s : RState) : Except BitErr Nat × RState :=
  if n == 0 || n > 64 then (.error (.invalidBitCount n), s)
  else
    let fill := putIntoBitsBuffer n s
    match fill.1 with
    | .error e => (.error e, fill.2)
    | .ok _ =>
        (.ok (getFromBitsBuffer n true fill.2).1, (getFromBitsBuffer n true fill.2).2)

/-- `PeekableBitReader::peek_bits`: validate, fill, extract without consuming. -/
def peekBits (n : Nat) (s : RState) : Except BitErr Nat × RState :=
  if n == 0 || n > 64 then (.error (.invalidBitCount n), s)
  else
    let fill := putIntoBitsBuffer n s
    match fill.1 with
    | .error e => (.error e, fill.2)
    | .ok _ =>
        (.ok (getFromBitsBuffer n false fill.2).1, (getFromBitsBuffer n false fill.2).2)

/-- Run a sequence of `read_bits` calls, collecting each call's result. -/
def readTrace (s : RState) : List Nat → List (Except BitErr Nat) × RState
  | [] => ([], s)
  | n :: ns =>
      let r := readBits n s
      let rest := readTrace r.2 ns
      (r.1 :: rest.1, rest.2)

/-- `BitReader::with_byte_order`: fresh reader over a byte source. -/
def BitReader.with_byte_order (order : ByteOrder) (input : List Nat) : RState :=
  { byteOrder := order, input := input, bits_buffer := 0, bits_in_buffer := 0 }

/-- `BitReader::new`: defaults to MSB-first (`BigEndian`). -/
def BitReader.new (input : List Nat) : RState :=
  BitReader.with_byte_order .bigEndian input

/-- `PeekableBitReader::new` wraps `BitReader::new`, hence MSB-first. -/
def PeekableBitReader.new (input : List Nat) : RState :=
  BitReader.new input

/-- `PeekableBitReader::with_byte_order` takes only the source (no order
argument) and hardcodes `ByteOrder::LittleEndian` for the inner reader. -/
def PeekableBitReader.with_byte_order (input : List Nat) : RState :=
  BitReader.with_byte_order .littleEndian input

/-- `BitReader::is_byte_aligned`. -/
def isByteAligned (s : RState) : Bool := s.bits_in_buffer % 8 == 0

/-- Loop body of the byte-passthrough `Read::read` when the buffer holds whole
bytes: repeatedly extract-and-consume 8 bits into the caller's buffer while at
least a byte is buffered and space remains; `k` is the space still free in the
caller's buffer. -/
def drainBufferBytes (k : Nat) (s : RState) : List Nat × RState :=
  match k with
  | 0 => ([], s)
  | k + 1 =>
      if 8 ≤ s.bits_in_buffer then
        let b := (getFromBitsBuffer 8 true s).1
        let rest := drainBufferBytes k (getFromBitsBuffer 8 true s).2
        (b % 256 :: rest.1, rest.2)
      else ([], s)

/-- `<BitReader as Read>::read` with a caller buffer of length `k`; returns
the bytes placed into the buffer.  Empty accumulator delegates to the source;
a whole-byte residue is split out first and the remaining space served from
the source; a sub-byte residue is an `UnalignedAccess` error. -/
def readPassthrough (k : Nat) (s : RState) : Except BitErr (List Nat) × RState :=
  if s.bits_in_buffer == 0 then
    (.ok (s.input.take k), { s with input := s.input.drop k })
  else if s.bits_in_buffer % 8 == 0 then
    let dr := drainBufferBytes k s
    let rest := k - dr.1.length
    (.ok (dr.1 ++ dr.2.input.take rest), { dr.2 with input := dr.2.input.drop rest })
  else (.error .unalignedAccess, s)

-- ------------------------------- BitWriter ------------------------------- --

/-- State of a `BitWriter<W>`: bit order, bytes already written to the sink
(in order), and the accumulator. -/
structure WState where
  byteOrder : ByteOrder
  output : List Nat
  bits_buffer : Nat
  bits_in_buffer : Nat
deriving DecidableEq, Repr

/-- `BitWriter::with_byte_order`: fresh writer over a byte sink. -/
def BitWriter.with_byte_order (order : ByteOrder) : WState :=
  { byteOrder := order, output := [], bits_buffer := 0, bits_in_buffer := 0 }

/-- `BitWriter::new`: defaults to MSB-first (`BigEndian`). -/
def BitWriter.new : WState := BitWriter.with_byte_order .bigEndian

/-- One iteration of `write_aligned_bytes_to_inner`: peel the oldest byte off
the policy edge of the register, push it to the sink, discard its bits. -/
def drainStep (s : WState) : WState :=
  let byte : Nat :=
    match s.byteOrder with
    | .bigEndian => wrapShr s.bits_buffer 56 % 256
    | .littleEndian => s.bits_buffer % 256
  let buffer : Nat :=
    match s.byteOrder with
    | .bigEndian => wrapShl s.bits_buffer 8
    | .littleEndian => s.bits_buffer >>> 8
  { s with output := s.output ++ [byte]
           bits_buffer := buffer
           bits_in_buffer := s.bits_in_buffer - 8 }

/-- Guarded iteration of `drainStep`, `m` iterations at most. -/
def drainSteps : Nat → WState → WState
  | 0, s => s
  | m + 1, s => if 8 ≤ s.bits_in_buffer then drainSteps m (drainStep s) else s

/-- `BitWriter::write_aligned_bytes_to_inner`: while at least 8 bits are
buffered, peel one byte off the oldest edge and push it to the sink.  Each
iteration removes exactly 8 bits, so the `while` loop runs exactly
`bits_in_buffer / 8` times; the guarded iteration below is that loop. -/
def writeAlignedBytesToInner (s : WState) : WState :=
  drainSteps (s.bits_in_buffer / 8) s

/-- `BitWriter::write_partial_byte_to_inner`: pad a nonempty sub-byte residue
to one byte at the policy edge and push it; clears the accumulator. -/
def writePartialByteToInner (s : WState) : WState :=
  if s.bits_in_buffer > 0 then
    let byte : Nat :=
      match s.byteOrder with
      | .bigEndian => wrapShr s.bits_buffer 56 % 256
      | .littleEndian => s.bits_buffer % 256
    { s with output := s.output ++ [byte], bits_buffer := 0, bits_in_buffer := 0 }
  else s

/-- `<BitWriter as Write>::flush`: write the padded residue, then flush the
sink (a no-op for the list sink). -/
def flushWriter (s : WState) : WState := writePartialByteToInner s

/-- Loop body of `BitWriter::write_bits`: insert up to the free capacity,
drain whole bytes whenever at least a byte accumulated or the value is fully
inserted.  `fuel` bounds the iterations; 130 suffices for every `remaining`
up to 64 (each pair of iterations lowers `remaining`). -/
def writeBitsLoop (fuel val remaining : Nat) (s : WState) : WState :=
  match fuel with
  | 0 => s
  | fuel + 1 =>
      if remaining > 0 then
        let available := usizeSub 64 s.bits_in_buffer
        let to_insert := min remaining available
        let insert_at_next_round := remaining - to_insert
        let to_insert_val := wrapShr val insert_at_next_round
        let buffer :=
          match s.byteOrder with
          | .bigEndian =>
              s.bits_buffer ||| wrapShl to_insert_val (usizeSub available to_insert)
          | .littleEndian =>
              s.bits_buffer ||| wrapShl to_insert_val s.bits_in_buffer
        let s1 := { s with bits_buffer := buffer
                           bits_in_buffer := s.bits_in_buffer + to_insert }
        let remaining1 := remaining - to_insert
        let val1 :=
          if insert_at_next_round > 0 then val &&& (wrapShl 1 insert_at_next_round - 1)
          else val
        let s2 :=
          if 8 ≤ s1.bits_in_buffer || remaining1 == 0 then writeAlignedBytesToInner s1
          else s1
        writeBitsLoop fuel val1 remaining1 s2
      else s

/-- `BitWriter::write_bits`: validate the width, mask the value to its low `n`
bits, then run the insertion loop. -/
def writeBits (value n : Nat) (s : WState) : Except BitErr Unit × WState :=
  if n == 0 || n > 64 then (.error (.invalidBitCount n), s)
  else
    let mask := if n == 64 then U64 - 1 else (1 <<< n) - 1
    let val := value &&& mask
    (.ok (), writeBitsLoop 130 val n s)

/-- Byte-insertion loop of the unaligned branch of `<BitWriter as Write>::write`:
fold each byte into the accumulator at the running bit offset (the source
tracks the offset in the local `remaining_bits` and updates `bits_in_buffer`
only after the loop; the fold returns the new register value). -/
def writeFoldBytes (order : ByteOrder) : List Nat → Nat → Nat → Nat
  | [], _, buf => buf
  | b :: bs, r, buf =>
      let buf1 :=
        match order with
        | .bigEndian => buf ||| wrapShl b (usizeSub 56 r)
        | .littleEndian => buf ||| wrapShl b r
      writeFoldBytes order bs (r + 8) buf1

/-- `<BitWriter as Write>::write`: drain whole buffered bytes; with an empty
accumulator pass the buffer straight to the sink, otherwise push as many bytes
as fit through the accumulator, drain, and write any remainder directly to the
sink.  Returns the reported byte count (the sink accepts everything). -/
def writePassthrough (buf : List Nat) (s : WState) : Except BitErr Nat × WState :=
  let s0 := writeAlignedBytesToInner s
  if s0.bits_in_buffer == 0 then
    (.ok buf.length, { s0 with output := s0.output ++ buf })
  else
    let free_space := usizeSub 64 s0.bits_in_buffer
    let bytes_to_process := min (free_space / 8) buf.length
    let processed := bytes_to_process
    let s1 := { s0 with
      bits_buffer := writeFoldBytes s0.byteOrder (buf.take bytes_to_process)
                       s0.bits_in_buffer s0.bits_buffer
      bits_in_buffer := s0.bits_in_buffer + 8 * processed }
    let s2 := writeAlignedBytesToInner s1
    if processed < buf.length then
      (.ok buf.length, { s2 with output := s2.output ++ buf.drop processed })
    else (.ok processed, s2)

/-- Run a sequence of `write_bits` calls. -/
def writeTrace (s : WState) : List (Nat × Nat) → List (Except BitErr Unit) × WState
  | [] => ([], s)
  | (v, n) :: ps =>
      let r := writeBits v n s
      let rest := writeTrace r.2 ps
      (r.1 :: rest.1, rest.2)

-- ------------------------------- Fast readers ------------------------------- --

/-- State of `FastBitReaderBig` / `FastBitReaderLittle` (the scratch array is
write-only temporary storage and is not modelled). -/
structure FastState where
  input : List Nat
  buffer : Nat
  bits_available : Nat
deriving DecidableEq, Repr

/-- Fresh fast reader over a byte source. -/
def FastState.new (input : List Nat) : FastState :=
  { input := input, buffer := 0, bits_available := 0 }

/-- Big-endian burst assembly of `read_bits_fast`: `val = (val << 8) | b`. -/
def assembleBig (bytes : List Nat) : Nat :=
  bytes.foldl (fun v b => (v <<< 8) ||| b) 0

/-- Accumulating loop of the little-endian burst assembly:
`for i in 0..needed { val |= scratch[i] << (i*8) }`. -/
def assembleLittleGo (acc i : Nat) : List Nat → Nat
  | [] => acc
  | b :: tl => assembleLittleGo (acc ||| (b <<< (i * 8))) (i + 1) tl

/-- Little-endian burst assembly of `read_bits_fast`. -/
def assembleLittle (bytes : List Nat) : Nat :=
  assembleLittleGo 0 0 bytes

/-- Fill loop of `read_bits_fast`: while fewer than `n` bits are available,
read a burst of `max(min(ceil((n-avail)/8), (64-avail)/8), 1)` bytes
(`read_exact`, which on shortfall consumes what is left and fails), assemble
them and or them into the register.  Note the `.max(1)`: the loop insists on
at least one byte even when the register lacks the room. -/
def fastFillLoopAux (order : ByteOrder) (n : Nat) :
    Nat → FastState → Except BitErr Unit × FastState
  | 0, s => (.ok (), s)
  | fuel + 1, s =>
    if s.bits_available < n then
      let remaining_bits := n - s.bits_available
      let max_bytes := (64 - s.bits_available) / 8
      let needed_bytes := max (min ((remaining_bits + 7) / 8) max_bytes) 1
      if s.input.length < needed_bytes then
        (.error .unexpectedEof, { s with input := [] })
      else
        let bytes := s.input.take needed_bytes
        let val :=
          match order with
          | .bigEndian => assembleBig bytes
          | .littleEndian => assembleLittle bytes
        let new_bits := needed_bytes * 8
        let shift :=
          match order with
          | .bigEndian => usizeSub (usizeSub 64 s.bits_available) new_bits % U32
          | .littleEndian => s.bits_available % U32
        fastFillLoopAux order n fuel
          { input := s.input.drop needed_bytes
            buffer := s.buffer ||| wrapShl val shift
            bits_available := s.bits_available + new_bits }
    else (.ok (), s)

/-- The fill `while` loop of `read_bits_fast`.  Every iteration raises
`bits_available` by at least 8 and the loop stops once it reaches `n`, so it
iterates at most `ceil(n/8) ≤ n` times (`n ≥ 1` is checked by the caller);
`n` rounds of the guarded iteration therefore are the whole loop. -/
def fastFillLoop (order : ByteOrder) (n : Nat) (s : FastState) :
    Except BitErr Unit × FastState :=
  fastFillLoopAux order n n s

/-- `read_bits_fast` of the fast reader of the given order: validate, fill in
bursts, then extract exactly as the general reader does. -/
def fastReadBits (order : ByteOrder) (n : Nat) (s : FastState) :
    Except BitErr Nat × FastState :=
  if n == 0 || n > 64 then (.error (.invalidBitCount n), s)
  else
    let fill := fastFillLoop order n s
    match fill.1 with
    | .error e => (.error e, fill.2)
    | .ok _ =>
        let result :=
          match order with
          | .bigEndian => wrapShr fill.2.buffer (64 - n)
          | .littleEndian =>
              fill.2.buffer &&& (if n == 64 then U64 - 1 else (1 <<< n) - 1)
        let buffer :=
          if n < 64 then
            match order with
            | .bigEndian => wrapShl fill.2.buffer n
            | .littleEndian => fill.2.buffer >>> n
          else 0
        (.ok result,
          { fill.2 with buffer := buffer
                        bits_available := fill.2.bits_available - n })

/-- Run a sequence of `read_bits_fast` calls. -/
def fastTrace (order : ByteOrder) (s : FastState) :
    List Nat → List (Except BitErr Nat) × FastState
  | [] => ([], s)
  | n :: ns =>
      let r := fastReadBits order n s
      let rest := fastTrace order r.2 ns
      (r.1 :: rest.1, rest.2)

-- ------------------------- Derived definitions ------------------------- --

/-- The whole bytes currently buffered by a reader, oldest first, obtained by
repeated `extract(8, consume=true)` as the byte-passthrough read performs it
(the specification's description of the drain).  At most `bits_in_buffer / 8`
such bytes exist. -/
def bufferedAux : Nat → RState → List Nat
  | 0, _ => []
  | m + 1, s =>
      if 8 ≤ s.bits_in_buffer then
        (getFromBitsBuffer 8 true s).1 % 256 ::
          bufferedAux m (getFromBitsBuffer 8 true s).2
      else []

/-- All whole bytes buffered by a reader, oldest first. -/
def bufferedWholeBytes (s : RState) : List Nat :=
  bufferedAux (s.bits_in_buffer / 8) s

/-- Insertion of one byte into the writer's register at the current occupancy,
exactly as both `write_bits(byte, 8)` and the unaligned passthrough loop
position it (`byte << (56 - occupancy)` for MSB-first, `byte << occupancy`
for LSB-first). -/
def insertByteW (s : WState) (b : Nat) : WState :=
  let buffer :=
    match s.byteOrder with
    | .bigEndian => s.bits_buffer ||| wrapShl b (usizeSub 56 s.bits_in_buffer)
    | .littleEndian => s.bits_buffer ||| wrapShl b s.bits_in_buffer
  { s with bits_buffer := buffer, bits_in_buffer := s.bits_in_buffer + 8 }

/-- A width `n` fits the general reader's fill capacity at occupancy `cnt`:
the capped fill can still reach at least `n` buffered bits.  Always true for
`n ≤ 57` and whenever `cnt % 8 = 0`. -/
def capOk (cnt n : Nat) : Bool :=
  n ≤ cnt + 8 * ((64 - cnt) / 8)

/-- Every width of the list is valid and within the fill capacity of the
general reader at the moment of its call (the occupancy evolves by running
the general reader). -/
def goodWidths (s : RState) : List Nat → Bool
  | [] => true
  | n :: ns =>
      (decide (1 ≤ n) && decide (n ≤ 64) && capOk s.bits_in_buffer n) &&
        goodWidths (readBits n s).2 ns

/-- Correspondence between a general reader state and a fast reader state:
same pending source bytes, same register, same occupancy. -/
def relRF (s : RState) (f : FastState) : Prop :=
  s.input = f.input ∧ s.bits_buffer = f.buffer ∧ s.bits_in_buffer = f.bits_available

/-- Well-formedness of a reachable reader state: occupancy within the 64-bit
register, register a 64-bit value, source bytes genuine bytes. -/
def wfR (s : RState) : Prop :=
  s.bits_in_buffer ≤ 64 ∧ s.bits_buffer < U64 ∧ ∀ b ∈ s.input, b < 256

-- --------------------- Specification-side bit semantics --------------------- --

/-- Bits of one byte in MSB-first order (bit 0 of the byte sequence is the
most significant bit of byte 0), as stated in the specification. -/
def byteBitsMsb (b : Nat) : List Nat :=
  (List.range 8).map fun i => b >>> (7 - i) &&& 1

/-- Bits of one byte in LSB-first order (bit 0 of byte 0 is its least
significant bit). -/
def byteBitsLsb (b : Nat) : List Nat :=
  (List.range 8).map fun i => b >>> i &&& 1

/-- The stream's bit sequence under the given order. -/
def streamBits (order : ByteOrder) (bytes : List Nat) : List Nat :=
  match order with
  | .bigEndian => bytes.flatMap byteBitsMsb
  | .littleEndian => bytes.flatMap byteBitsLsb

/-- Value of a bit list read left-to-right (first bit most significant). -/
def valueMsbFirst (bits : List Nat) : Nat :=
  bits.foldl (fun a bit => 2 * a + bit) 0

/-- Value of a bit list where the i-th bit carries weight `2 ^ i`. -/
def valueLsbFirst (bits : List Nat) : Nat :=
  bits.foldr (fun bit a => bit + 2 * a) 0

/-- The specified result of reading the `n` bits starting at bit offset `pos`
of the stream, per the claimed bit-numbering semantics. -/
def specBitsValue (order : ByteOrder) (bytes : List Nat) (pos n : Nat) : Nat :=
  match order with
  | .bigEndian => valueMsbFirst (((streamBits order bytes).drop pos).take n)
  | .littleEndian => valueLsbFirst (((streamBits order bytes).drop pos).take n)

end Bitio

namespace Bitio

-- ============================== Claim theorems ============================== --

/-- Claim C10: `PeekableBitReader::with_byte_order` takes no bit-order
argument and always constructs an LSB-first (LittleEndian) reader, while
`PeekableBitReader::new` constructs an MSB-first (BigEndian) one; since the
source is the constructor's only parameter, no MSB-first reader can be
obtained through `with_byte_order`. -/
theorem claim_C10_peekable_constructor_orders :
    (∀ input : List Nat,
      (PeekableBitReader.with_byte_order input).byteOrder = ByteOrder.littleEndian) ∧
    (∀ input : List Nat,
      (PeekableBitReader.new input).byteOrder = ByteOrder.bigEndian) :=
  ⟨fun _ => rfl, fun _ => rfl⟩

/-- Claim C1 fails on the code: over nine 0xFF bytes (more than the 67 bits
requested), MSB-first `read_bits(3)` then `read_bits(64)` returns
`0xFFFFFFFFFFFFFFF8` at the second call, while the next 64 bits of the
stream's bit sequence (offset 3) have value `2^64 - 1`: the fill's capacity
cap leaves only 61 valid bits and the extraction fabricates three zero bits. -/
theorem claim_C1_read_bits_underfill_eval :
    (readTrace (BitReader.new (List.replicate 9 0xFF)) [3, 64]).1 =
      [.ok 7, .ok 0xFFFFFFFFFFFFFFF8] ∧
    specBitsValue .bigEndian (List.replicate 9 0xFF) 0 3 = 7 ∧
    specBitsValue .bigEndian (List.replicate 9 0xFF) 3 64 = 2 ^ 64 - 1 ∧
    (0xFFFFFFFFFFFFFFF8 : Nat) ≠ 2 ^ 64 - 1 := by decide

/-- Claim C2 fails on the code: after `read_bits(3)` the occupancy is 5, the
following `read_bits(64)` can only fill to 61 bits (the cap allows 7 more
bytes), and the unconditional `bits_in_buffer -= n` underflows — with
release-mode wrapping the occupancy becomes `2^64 - 3`, far above 64 (a debug
build panics at the same subtraction). -/
theorem claim_C2_occupancy_underflow_eval :
    (readTrace (BitReader.new (List.replicate 8 0xFF)) [3, 64]).2.bits_in_buffer =
      2 ^ 64 - 3 ∧
    64 < (readTrace (BitReader.new (List.replicate 8 0xFF)) [3, 64]).2.bits_in_buffer := by
  decide

/-- Claim C6 fails on the code: writing 3 bits then a full 64-bit all-ones
value, flushing, and reading back widths 3 and 64 over the produced bytes
returns `0xFFFFFFFFFFFFFFF8` instead of the written value masked to 64 bits
(`2^64 - 1`) — the read side under-fills on the misaligned 64-bit read. -/
theorem claim_C6_roundtrip_fails_eval :
    (writeTrace BitWriter.new [(7, 3), (0xFFFFFFFFFFFFFFFF, 64)]).1 = [.ok (), .ok ()] ∧
    (flushWriter (writeTrace BitWriter.new [(7, 3), (0xFFFFFFFFFFFFFFFF, 64)]).2).output =
      [0xFF, 0xFF, 0xFF, 0xFF, 0xFF, 0xFF, 0xFF, 0xFF, 0xE0] ∧
    (readTrace (BitReader.new [0xFF, 0xFF, 0xFF, 0xFF, 0xFF, 0xFF, 0xFF, 0xFF, 0xE0])
        [3, 64]).1 = [.ok 7, .ok 0xFFFFFFFFFFFFFFF8] ∧
    (0xFFFFFFFFFFFFFFF8 : Nat) ≠ 0xFFFFFFFFFFFFFFFF := by decide

/-- Claim C3 is false as stated: a fresh MSB-first reader over the single
byte 0xAB, asked for 16 bits, needs 2 bytes, pulls the 1 available byte from
the source and fails with `UnexpectedEof` — but the pulled byte is discarded
before the merge loop, so the accumulator still holds 0 bits (the claim
demands the 8 bits of 0xAB merged, i.e. occupancy 8). -/
theorem claim_C3_counterexample_discarded_bytes :
    bytesNeededFor 16 (BitReader.new [0xAB]) = 2 ∧
    readBits 16 (BitReader.new [0xAB]) =
      (.error .unexpectedEof,
        { byteOrder := .bigEndian, input := [], bits_buffer := 0, bits_in_buffer := 0 }) ∧
    (readBits 16 (BitReader.new [0xAB])).2.bits_in_buffer ≠ 8 := by decide

/-- Claim C5 is false as stated for the writer: with a 3-bit residue buffered
(occupancy mod 8 ≠ 0), the byte passthrough `write([0x01])` does not fail with
`UnalignedAccess` — it succeeds and reports 1 byte written. -/
theorem claim_C5_counterexample_writer_write_succeeds :
    (writeBits 5 3 BitWriter.new).2.bits_in_buffer % 8 = 3 ∧
    (writePassthrough [1] (writeBits 5 3 BitWriter.new).2).1 = .ok 1 ∧
    (writePassthrough [1] (writeBits 5 3 BitWriter.new).2).1 ≠
      .error .unalignedAccess := by decide

/-- Claim C7 is false as stated: over the 5-byte source AB CD EF 12 34, a
successful `peek_bits(33)` changes the outcome of a subsequent read.  Without
the peek, `read_bits(64)` pulls and then discards all 5 source bytes on the
EOF shortfall, so a following `read_bits(8)` also fails; after the peek those
bytes sit safely in the accumulator, so the same `read_bits(8)` succeeds. -/
theorem claim_C7_counterexample_peek_changes_later_reads :
    (peekBits 33 (BitReader.new [0xAB, 0xCD, 0xEF, 0x12, 0x34])).1 = .ok 5764800036 ∧
    (readTrace (peekBits 33 (BitReader.new [0xAB, 0xCD, 0xEF, 0x12, 0x34])).2
        [64, 8]).1 = [.error .unexpectedEof, .ok 0xAB] ∧
    (readTrace (BitReader.new [0xAB, 0xCD, 0xEF, 0x12, 0x34]) [64, 8]).1 =
      [.error .unexpectedEof, .error .unexpectedEof] := by decide

/-- Claim C4 is false as stated: a writer holding a 3-bit residue given an
8-byte buffer routes only the first 7 bytes through the accumulator and
writes the 8th byte raw to the sink (final sink byte 8 = 0x08), whereas
calling `write_bits(byte, 8)` per byte shifts every byte through the residue
(final sink byte 0xE1) — the sink byte sequences and final residues differ. -/
theorem claim_C4_counterexample_raw_tail_write :
    (writePassthrough [1, 2, 3, 4, 5, 6, 7, 8] (writeBits 5 3 BitWriter.new).2).2.output =
      [160, 32, 64, 96, 128, 160, 192, 8] ∧
    ([1, 2, 3, 4, 5, 6, 7, 8].foldl (fun s b => (writeBits b 8 s).2)
        (writeBits 5 3 BitWriter.new).2).output =
      [160, 32, 64, 96, 128, 160, 192, 225] ∧
    ([160, 32, 64, 96, 128, 160, 192, 8] : List Nat) ≠
      [160, 32, 64, 96, 128, 160, 192, 225] := by decide

/-- Claim C8 is false as stated: over exactly eight 0xFF bytes with widths
3 then 64, the general MSB-first reader's second call succeeds (under-filled,
returning `0xFFFFFFFFFFFFFFF8`), while `FastBitReaderBig`, whose fill loop
insists on at least one more byte (`.max(1)`), hits end of input and fails. -/
theorem claim_C8_counterexample_divergence :
    (readTrace (BitReader.new (List.replicate 8 0xFF)) [3, 64]).1 =
      [.ok 7, .ok 0xFFFFFFFFFFFFFFF8] ∧
    (fastTrace .bigEndian (FastState.new (List.replicate 8 0xFF)) [3, 64]).1 =
      [.ok 7, .error .unexpectedEof] ∧
    ([.ok 7, .ok 0xFFFFFFFFFFFFFFF8] : List (Except BitErr Nat)) ≠
      [.ok 7, .error .unexpectedEof] := by decide

end Bitio

namespace Bitio

-- ============================== Helper lemmas ============================== --

theorem usizeSub_eq_sub {a b : Nat} (hb : b ≤ a) (ha : a < U64) :
    usizeSub a b = a - b := by
  have h : U64 = 18446744073709551616 := rfl
  simp only [usizeSub, h] at *
  omega

theorem drainStep_cnt (s : WState) :
    (drainStep s).bits_in_buffer = s.bits_in_buffer - 8 := by
  simp [drainStep]

theorem drainStep_byteOrder (s : WState) :
    (drainStep s).byteOrder = s.byteOrder := by
  simp [drainStep]

theorem drainSteps_cnt : ∀ (m : Nat) (s : WState), s.bits_in_buffer ≤ 8 * m + 7 →
    (drainSteps m s).bits_in_buffer = s.bits_in_buffer % 8
  | 0, s, h => by
      simp only [drainSteps]
      omega
  | m + 1, s, h => by
      by_cases h8 : 8 ≤ s.bits_in_buffer
      · rw [drainSteps, if_pos h8, drainSteps_cnt m _ (by rw [drainStep_cnt]; omega),
          drainStep_cnt]
        omega
      · rw [drainSteps, if_neg h8]
        omega

theorem writeAligned_cnt (s : WState) :
    (writeAlignedBytesToInner s).bits_in_buffer = s.bits_in_buffer % 8 := by
  unfold writeAlignedBytesToInner
  exact drainSteps_cnt _ s (by omega)

theorem writeAligned_cnt_lt (s : WState) :
    (writeAlignedBytesToInner s).bits_in_buffer < 8 := by
  rw [writeAligned_cnt]
  omega

theorem writeBitsLoop_cnt_lt : ∀ (fuel val rem : Nat) (s : WState),
    s.bits_in_buffer < 8 → (writeBitsLoop fuel val rem s).bits_in_buffer < 8
  | 0, val, rem, s, h2 => by simpa [writeBitsLoop] using h2
  | fuel + 1, val, rem, s, h2 => by
      simp only [writeBitsLoop]
      split
      · apply writeBitsLoop_cnt_lt
        split
        · exact writeAligned_cnt_lt _
        · next h3 =>
            simp only [Bool.or_eq_true, decide_eq_true_eq, not_or] at h3
            exact Nat.lt_of_not_le h3.1
      · exact h2

-- ----------------------------- Claim C9 ----------------------------- --

/-- Claim C9: after every public `BitWriter` operation the occupancy is
strictly below 8 — a fresh writer starts at 0, `write_bits` drains whole
bytes before returning, the byte passthrough `write` drains after folding,
and `flush` clears the accumulator entirely. -/
theorem claim_C9_writer_residue_invariant (s : WState) (hinv : s.bits_in_buffer < 8) :
    (∀ order : ByteOrder, (BitWriter.with_byte_order order).bits_in_buffer < 8) ∧
    (∀ v n : Nat, ((writeBits v n s).2).bits_in_buffer < 8) ∧
    (∀ buf : List Nat, ((writePassthrough buf s).2).bits_in_buffer < 8) ∧
    (flushWriter s).bits_in_buffer < 8 := by
  refine ⟨fun order => by simp [BitWriter.with_byte_order], fun v n => ?_,
    fun buf => ?_, ?_⟩
  · unfold writeBits
    split
    · exact hinv
    · exact writeBitsLoop_cnt_lt 130 _ _ s hinv
  · simp only [writePassthrough]
    split
    · simpa using writeAligned_cnt_lt s
    · split
      · simpa using writeAligned_cnt_lt _
      · exact writeAligned_cnt_lt _
  · unfold flushWriter writePartialByteToInner
    split
    · simp
    · exact hinv

/-- Witness for C9 at a concrete writer and call. -/
theorem claim_C9_writer_residue_invariant_witness :
    (BitWriter.new).bits_in_buffer < 8 ∧
    ((writeBits 0xABCD 13 BitWriter.new).2).bits_in_buffer < 8 :=
  ⟨by decide, (claim_C9_writer_residue_invariant BitWriter.new (by decide)).2.1 0xABCD 13⟩

-- ----------------------------- Claim C3 ----------------------------- --

theorem putIntoBitsBuffer_short {n : Nat} {s : RState}
    (hshort : s.input.length < bytesNeededFor n s) :
    putIntoBitsBuffer n s = (.error .unexpectedEof, { s with input := [] }) := by
  have hpos : 0 < bytesNeededFor n s := by omega
  simp only [putIntoBitsBuffer]
  rw [if_pos hpos, Nat.min_eq_right hshort.le, if_pos hshort]
  simp [List.drop_length]

/-- Claim C3 amended: when a fill hits end-of-stream partway (the source can
supply only `k` bytes, `0 < k < bytes_needed`), `read_bits` fails with
`UnexpectedEof`, the `k` bytes are consumed from the source, and they are
discarded: the accumulator (register and occupancy) is exactly as before the
call, with no byte merged. -/
theorem claim_C3_amended_eof_discards_pulled_bytes (n : Nat) (s : RState)
    (h1 : 1 ≤ n) (h64 : n ≤ 64)
    (_hk : 0 < s.input.length)
    (hshort : s.input.length < bytesNeededFor n s) :
    readBits n s = (.error .unexpectedEof, { s with input := [] }) := by
  unfold readBits
  rw [if_neg (by simp; omega), putIntoBitsBuffer_short hshort]

theorem getFrom_take_cnt (n : Nat) (s : RState) :
    (getFromBitsBuffer n true s).2.bits_in_buffer = usizeSub s.bits_in_buffer n := by
  simp [getFromBitsBuffer]

theorem getFrom_take_input (n : Nat) (s : RState) :
    (getFromBitsBuffer n true s).2.input = s.input := by
  simp [getFromBitsBuffer]

theorem drainBufferBytes_input : ∀ (k : Nat) (s : RState),
    (drainBufferBytes k s).2.input = s.input
  | 0, s => rfl
  | k + 1, s => by
      by_cases h8 : 8 ≤ s.bits_in_buffer
      · rw [drainBufferBytes, if_pos h8]
        simpa [getFrom_take_input] using drainBufferBytes_input k _
      · rw [drainBufferBytes, if_neg h8]

theorem usizeSub_small {a b : Nat} (hb : b ≤ a) (ha : a ≤ 64) : usizeSub a b = a - b :=
  usizeSub_eq_sub hb (Nat.lt_of_le_of_lt ha (by decide))

theorem drainBufferBytes_fst : ∀ (k : Nat) (s : RState), s.bits_in_buffer ≤ 64 →
    (drainBufferBytes k s).1 = (bufferedWholeBytes s).take k
  | 0, s, _ => by simp [drainBufferBytes]
  | k + 1, s, hwf => by
      by_cases h8 : 8 ≤ s.bits_in_buffer
      · have hc : (getFromBitsBuffer 8 true s).2.bits_in_buffer = s.bits_in_buffer - 8 := by
          rw [getFrom_take_cnt]
          exact usizeSub_small (by omega) hwf
        rw [drainBufferBytes, if_pos h8]
        dsimp only
        rw [drainBufferBytes_fst k _ (by rw [hc]; omega)]
        have hdiv : s.bits_in_buffer / 8 = (s.bits_in_buffer / 8 - 1) + 1 := by omega
        conv_rhs => rw [bufferedWholeBytes, hdiv]
        rw [bufferedAux, if_pos h8, List.take_succ_cons, bufferedWholeBytes, hc]
        have hdiv2 : (s.bits_in_buffer - 8) / 8 = s.bits_in_buffer / 8 - 1 := by omega
        rw [hdiv2]
      · rw [drainBufferBytes, if_neg h8]
        have h0 : s.bits_in_buffer / 8 = 0 := by omega
        simp [bufferedWholeBytes, h0, bufferedAux]

-- ----------------------------- Claim C5 ----------------------------- --

/-- Claim C5 amended: the reader's byte passthrough fails with
`UnalignedAccess` exactly when the occupancy is not a multiple of 8 (the
failing call consumes nothing); an aligned call succeeds and serves the
buffered whole bytes (repeated `extract(8, consume=true)`) ahead of bytes
pulled from the source.  The writer's byte passthrough never fails with
`UnalignedAccess`: it reports all bytes written in every state. -/
theorem claim_C5_amended_alignment_contract (s : RState) (k : Nat)
    (hwf : s.bits_in_buffer ≤ 64) (w : WState) (buf : List Nat) :
    (s.bits_in_buffer % 8 ≠ 0 →
      readPassthrough k s = (.error .unalignedAccess, s)) ∧
    (s.bits_in_buffer % 8 = 0 →
      (readPassthrough k s).1 = .ok ((bufferedWholeBytes s ++ s.input).take k)) ∧
    (writePassthrough buf w).1 = .ok buf.length := by
  refine ⟨fun hmis => ?_, fun hal => ?_, ?_⟩
  · have h0 : ¬ s.bits_in_buffer = 0 := fun h => hmis (by simp [h])
    simp [readPassthrough, h0, hmis]
  · by_cases h0 : s.bits_in_buffer = 0
    · have : bufferedWholeBytes s = [] := by
        simp [bufferedWholeBytes, h0, bufferedAux]
      simp [readPassthrough, h0, this]
    · have hfst := drainBufferBytes_fst k s hwf
      have hinp := drainBufferBytes_input k s
      simp only [readPassthrough, beq_iff_eq, h0, if_false, hal, if_true]
      rw [hfst, hinp, List.take_append_eq_append_take]
      congr 1
      congr 1
      simp [List.length_take]
      omega
  · simp only [writePassthrough]
    split
    · rfl
    · split
      · rfl
      · next hge =>
          have : min (usizeSub 64 (writeAlignedBytesToInner w).bits_in_buffer / 8)
              buf.length = buf.length := by
            have := Nat.min_le_right
              (usizeSub 64 (writeAlignedBytesToInner w).bits_in_buffer / 8) buf.length
            omega
          rw [this]

/-- Witness for the amended C5 at a reader holding two whole buffered bytes. -/
theorem claim_C5_amended_alignment_contract_witness :
    ((peekBits 16 (BitReader.new [0xAB, 0xCD, 0xEF])).2.bits_in_buffer ≤ 64) ∧
    (((peekBits 16 (BitReader.new [0xAB, 0xCD, 0xEF])).2.bits_in_buffer % 8 ≠ 0 →
      readPassthrough 3 (peekBits 16 (BitReader.new [0xAB, 0xCD, 0xEF])).2 =
        (.error .unalignedAccess, (peekBits 16 (BitReader.new [0xAB, 0xCD, 0xEF])).2)) ∧
     ((peekBits 16 (BitReader.new [0xAB, 0xCD, 0xEF])).2.bits_in_buffer % 8 = 0 →
      (readPassthrough 3 (peekBits 16 (BitReader.new [0xAB, 0xCD, 0xEF])).2).1 =
        .ok ((bufferedWholeBytes (peekBits 16 (BitReader.new [0xAB, 0xCD, 0xEF])).2 ++
          (peekBits 16 (BitReader.new [0xAB, 0xCD, 0xEF])).2.input).take 3)) ∧
     (writePassthrough [1, 2] BitWriter.new).1 = .ok ([1, 2] : List Nat).length) :=
  ⟨by decide,
    claim_C5_amended_alignment_contract (peekBits 16 (BitReader.new [0xAB, 0xCD, 0xEF])).2 3
      (by decide) BitWriter.new [1, 2]⟩

/-- Witness for the amended C3 at the concrete shortfall input. -/
theorem claim_C3_amended_eof_discards_pulled_bytes_witness :
    (1 ≤ 16 ∧ (16 : Nat) ≤ 64 ∧ 0 < (BitReader.new [0xAB]).input.length ∧
      (BitReader.new [0xAB]).input.length < bytesNeededFor 16 (BitReader.new [0xAB])) ∧
    readBits 16 (BitReader.new [0xAB]) =
      (.error .unexpectedEof, { BitReader.new [0xAB] with input := [] }) :=
  ⟨⟨by decide, by decide, by decide, by decide⟩,
    claim_C3_amended_eof_discards_pulled_bytes 16 _ (by decide) (by decide)
      (by decide) (by decide)⟩

end Bitio

namespace Bitio

-- ----------------------------- Claim C7 ----------------------------- --

theorem foldl_mergeByte_meta : ∀ (l : List Nat) (s : RState),
    s.bits_in_buffer + 8 * l.length ≤ 64 →
    (l.foldl mergeByte s).bits_in_buffer = s.bits_in_buffer + 8 * l.length ∧
    (l.foldl mergeByte s).byteOrder = s.byteOrder ∧
    (l.foldl mergeByte s).input = s.input
  | [], s, _ => by simp
  | b :: tl, s, h => by
      simp only [List.length_cons] at h
      have hm : (mergeByte s b).bits_in_buffer = s.bits_in_buffer + 8 := by
        simp only [mergeByte]
        omega
      have hord : (mergeByte s b).byteOrder = s.byteOrder := by simp [mergeByte]
      have hinp : (mergeByte s b).input = s.input := by simp [mergeByte]
      have ih := foldl_mergeByte_meta tl (mergeByte s b)
        (by rw [hm]; omega)
      simp only [List.foldl_cons, List.length_cons] at ih ⊢
      rw [ih.1, ih.2.1, ih.2.2, hm, hord, hinp]
      exact ⟨by omega, rfl, rfl⟩

theorem bytesNeededFor_eq {n : Nat} (s : RState) (hwf : s.bits_in_buffer ≤ 64) :
    bytesNeededFor n s =
      min ((n - s.bits_in_buffer + 7) / 8) ((64 - s.bits_in_buffer) / 8) := by
  unfold bytesNeededFor
  rw [usizeSub_small hwf (by omega)]

theorem putInto_ok {n : Nat} {s t : RState} (hwf : s.bits_in_buffer ≤ 64)
    (h : putIntoBitsBuffer n s = (.ok (), t)) :
    t.bits_in_buffer = s.bits_in_buffer + 8 * bytesNeededFor n s ∧
    t.byteOrder = s.byteOrder ∧
    t.input = s.input.drop (bytesNeededFor n s) ∧
    bytesNeededFor n s ≤ s.input.length := by
  by_cases hbn : bytesNeededFor n s > 0
  · rw [putIntoBitsBuffer] at h
    simp only [if_pos hbn] at h
    by_cases hlen : min (bytesNeededFor n s) s.input.length < bytesNeededFor n s
    · rw [if_pos hlen] at h
      exact absurd h (by simp)
    · rw [if_neg hlen] at h
      have hle : bytesNeededFor n s ≤ s.input.length := by omega
      have hmin : min (bytesNeededFor n s) s.input.length = bytesNeededFor n s :=
        Nat.min_eq_left hle
      rw [hmin] at h
      have hbound : bytesNeededFor n s ≤ (64 - s.bits_in_buffer) / 8 := by
        rw [bytesNeededFor_eq s hwf]
        omega
      have hlist : (s.input.take (bytesNeededFor n s)).length = bytesNeededFor n s := by
        simp [List.length_take]
        omega
      have hmeta := foldl_mergeByte_meta (s.input.take (bytesNeededFor n s))
        { s with input := s.input.drop (bytesNeededFor n s) }
        (by simp only [hlist]; omega)
      have ht : (s.input.take (bytesNeededFor n s)).foldl mergeByte
          { s with input := s.input.drop (bytesNeededFor n s) } = t := by
        have := congrArg Prod.snd h
        simpa using this
      rw [ht, hlist] at hmeta
      exact ⟨hmeta.1, hmeta.2.1, hmeta.2.2, hle⟩
  · rw [putIntoBitsBuffer] at h
    simp only [if_neg hbn] at h
    have ht : s = t := by
      have := congrArg Prod.snd h
      simpa using this
    have h0 : bytesNeededFor n s = 0 := by omega
    rw [← ht, h0]
    simp

theorem putInto_noop {n : Nat} {t : RState} (h0 : bytesNeededFor n t = 0) :
    putIntoBitsBuffer n t = (.ok (), t) := by
  rw [putIntoBitsBuffer]
  simp [h0]

theorem getFrom_fst_take_eq (n : Nat) (s : RState) :
    (getFromBitsBuffer n true s).1 = (getFromBitsBuffer n false s).1 := by
  simp [getFromBitsBuffer]

/-- Claim C7 amended: a successful `peek_bits(n)` followed immediately by
`read_bits(n)` returns the same value from both calls, and the peek preserves
the byte-alignment state (occupancy modulo 8 unchanged).  (The stronger
original statement — that a peek never changes the outcome of any subsequent
read — fails when a later fill hits end of stream, see the counterexample.) -/
theorem claim_C7_amended_peek_then_read (n : Nat) (s : RState) (v : Nat) (t : RState)
    (hwf : s.bits_in_buffer ≤ 64)
    (hpk : peekBits n s = (.ok v, t)) :
    (readBits n t).1 = .ok v ∧ t.bits_in_buffer % 8 = s.bits_in_buffer % 8 := by
  by_cases hval : (n == 0 || decide (n > 64)) = true
  · rw [peekBits] at hpk
    simp only [hval, if_true] at hpk
    exact absurd hpk (by simp)
  · rw [peekBits] at hpk
    simp only [hval, Bool.false_eq_true, if_false] at hpk
    have hn : 1 ≤ n ∧ n ≤ 64 := by
      simp only [Bool.or_eq_true, beq_iff_eq, decide_eq_true_eq, not_or] at hval
      omega
    rcases hfill : (putIntoBitsBuffer n s).1 with e | u
    · rw [hfill] at hpk
      exact absurd hpk (by simp)
    · rw [hfill] at hpk
      simp only [Except.ok.injEq, Prod.mk.injEq] at hpk
      have hfill2 : putIntoBitsBuffer n s = (.ok (), (putIntoBitsBuffer n s).2) := by
        rw [← hfill]
      have hok := putInto_ok hwf hfill2
      have ht : t = (putIntoBitsBuffer n s).2 := by
        rw [← hpk.2]
        simp [getFromBitsBuffer]
      have htcnt : t.bits_in_buffer = s.bits_in_buffer + 8 * bytesNeededFor n s := by
        rw [ht]; exact hok.1
      have htwf : t.bits_in_buffer ≤ 64 := by
        have hbound : bytesNeededFor n s ≤ (64 - s.bits_in_buffer) / 8 := by
          rw [bytesNeededFor_eq s hwf]; omega
        omega
      have hzero : bytesNeededFor n t = 0 := by
        rw [bytesNeededFor_eq t htwf, htcnt, bytesNeededFor_eq s hwf]
        have h1 := hn.1
        have h2 := hn.2
        omega
      constructor
      · rw [readBits]
        simp only [hval, Bool.false_eq_true, if_false, putInto_noop hzero]
        rw [getFrom_fst_take_eq]
        rw [← hpk.1, ht]
      · rw [htcnt]
        omega

/-- Witness for the amended C7: peek 12 bits then read them back. -/
theorem claim_C7_amended_peek_then_read_witness :
    ((BitReader.new [0xAB, 0xCD]).bits_in_buffer ≤ 64 ∧
      peekBits 12 (BitReader.new [0xAB, 0xCD]) =
        (.ok 0xABC, (peekBits 12 (BitReader.new [0xAB, 0xCD])).2)) ∧
    (readBits 12 (peekBits 12 (BitReader.new [0xAB, 0xCD])).2).1 = .ok 0xABC ∧
    (peekBits 12 (BitReader.new [0xAB, 0xCD])).2.bits_in_buffer % 8 =
      (BitReader.new [0xAB, 0xCD]).bits_in_buffer % 8 :=
  ⟨⟨by decide, by decide⟩,
    claim_C7_amended_peek_then_read 12 (BitReader.new [0xAB, 0xCD]) 0xABC
      (peekBits 12 (BitReader.new [0xAB, 0xCD])).2 (by decide) (by decide)⟩

end Bitio

namespace Bitio

-- --------------------------- Bitwise toolkit --------------------------- --

theorem shiftLeft_lt {x n : Nat} (k : Nat) (h : x < 2 ^ n) : x <<< k < 2 ^ (n + k) := by
  rw [Nat.shiftLeft_eq, Nat.pow_add]
  exact Nat.mul_lt_mul_of_lt_of_le h (Nat.le_refl _) (Nat.two_pow_pos k)

theorem or_shiftLeft_distrib (x y k : Nat) :
    (x ||| y) <<< k = (x <<< k) ||| (y <<< k) := by
  refine Nat.eq_of_testBit_eq fun i => ?_
  simp only [Nat.testBit_shiftLeft, Nat.testBit_or]
  by_cases h : k ≤ i <;> simp [h]

theorem or_shiftRight_distrib (x y k : Nat) :
    (x ||| y) >>> k = (x >>> k) ||| (y >>> k) := by
  refine Nat.eq_of_testBit_eq fun i => ?_
  simp [Nat.testBit_shiftRight, Nat.testBit_or]

theorem or_mod_U64 (x y : Nat) : (x ||| y) % U64 = x % U64 ||| y % U64 := by
  unfold U64
  refine Nat.eq_of_testBit_eq fun i => ?_
  simp only [Nat.testBit_mod_two_pow, Nat.testBit_or]
  by_cases h : i < 64 <;> simp [h]

theorem shiftRight_eq_zero {x k : Nat} (h : x < 2 ^ k) : x >>> k = 0 := by
  rw [Nat.shiftRight_eq_div_pow]
  exact Nat.div_eq_of_lt h

theorem wrapShl_eq_shiftLeft {b : Nat} (k : Nat) {n : Nat} (hb : b < 2 ^ n)
    (hnk : n + k ≤ 64) (hk : k < 64) : wrapShl b k = b <<< k := by
  unfold wrapShl U64
  rw [Nat.mod_eq_of_lt hk]
  exact Nat.mod_eq_of_lt
    (Nat.lt_of_lt_of_le (shiftLeft_lt k hb) (Nat.pow_le_pow_right (by omega) hnk))

theorem wrapShr_eq_shiftRight (x : Nat) {k : Nat} (hk : k < 64) :
    wrapShr x k = x >>> k := by
  unfold wrapShr
  rw [Nat.mod_eq_of_lt hk]

theorem shiftLeft_shiftRight_cancel {b c k : Nat} (h : k ≤ c) :
    (b <<< c) >>> k = b <<< (c - k) := by
  rw [Nat.shiftLeft_eq, Nat.shiftLeft_eq, Nat.shiftRight_eq_div_pow]
  have hc : 2 ^ c = 2 ^ (c - k) * 2 ^ k := by
    rw [← Nat.pow_add]
    congr 1
    omega
  rw [hc, ← Nat.mul_assoc, Nat.mul_div_cancel _ (Nat.two_pow_pos k)]

theorem shiftLeft_mod_two_pow_eq_zero {b c k : Nat} (h : k ≤ c) :
    (b <<< c) % 2 ^ k = 0 := by
  rw [Nat.shiftLeft_eq]
  have hc : 2 ^ c = 2 ^ (c - k) * 2 ^ k := by
    rw [← Nat.pow_add]
    congr 1
    omega
  rw [hc, ← Nat.mul_assoc]
  exact Nat.mul_mod_left _ _

theorem mod_U64_lt (x : Nat) : x % U64 < U64 :=
  Nat.mod_lt _ (by decide)

theorem wrapShl_lt_U64 (x k : Nat) : wrapShl x k < U64 := mod_U64_lt _

theorem or_lt_U64 {x y : Nat} (hx : x < U64) (hy : y < U64) : x ||| y < U64 :=
  Nat.or_lt_two_pow hx hy

end Bitio

namespace Bitio

-- ----------------------------- Claim C4 ----------------------------- --

theorem insertByteW_meta (s : WState) (b : Nat) :
    (insertByteW s b).bits_in_buffer = s.bits_in_buffer + 8 ∧
    (insertByteW s b).byteOrder = s.byteOrder ∧
    (insertByteW s b).output = s.output := by
  simp [insertByteW]

theorem insertByteW_buffer_lt (s : WState) (b : Nat) (h : s.bits_buffer < U64) :
    (insertByteW s b).bits_buffer < U64 := by
  simp only [insertByteW]
  cases s.byteOrder <;> exact or_lt_U64 h (wrapShl_lt_U64 _ _)

theorem drainStep_buffer_lt (s : WState) (h : s.bits_buffer < U64) :
    (drainStep s).bits_buffer < U64 := by
  simp only [drainStep]
  cases s.byteOrder
  · exact mod_U64_lt _
  · exact Nat.lt_of_le_of_lt (Nat.le_trans
      (by rw [Nat.shiftRight_eq_div_pow]; exact Nat.div_le_self _ _) (Nat.le_refl _)) h

theorem insertByteW_drainStep_comm (s : WState) (b : Nat) (hb : b < 256)
    (h8 : 8 ≤ s.bits_in_buffer) (h56 : s.bits_in_buffer ≤ 56) :
    insertByteW (drainStep s) b = drainStep (insertByteW s b) := by
  have hb' : b < 2 ^ 8 := hb
  have hu1 : usizeSub 56 s.bits_in_buffer = 56 - s.bits_in_buffer :=
    usizeSub_small (by omega) (by omega)
  have hu2 : usizeSub 56 (s.bits_in_buffer - 8) = 64 - s.bits_in_buffer := by
    rw [usizeSub_small (by omega) (by omega)]
    omega
  cases horder : s.byteOrder
  case bigEndian =>
    have hins : wrapShl b (56 - s.bits_in_buffer) = b <<< (56 - s.bits_in_buffer) :=
      wrapShl_eq_shiftLeft _ hb' (by omega) (by omega)
    have hins2 : wrapShl b (64 - s.bits_in_buffer) = b <<< (64 - s.bits_in_buffer) :=
      wrapShl_eq_shiftLeft _ hb' (by omega) (by omega)
    simp only [insertByteW, drainStep, horder, hu1, hu2, hins, hins2, WState.mk.injEq]
    refine ⟨trivial, ?_, ?_, by omega⟩
    · -- emitted byte unchanged by the insertion below bit 56
      have hz : (b <<< (56 - s.bits_in_buffer)) >>> 56 = 0 :=
        shiftRight_eq_zero (Nat.lt_of_lt_of_le
          (shiftLeft_lt _ hb') (Nat.pow_le_pow_right (by omega) (by omega)))
      rw [wrapShr_eq_shiftRight _ (by omega), wrapShr_eq_shiftRight _ (by omega),
        or_shiftRight_distrib, hz]
      simp
    · -- registers agree after the shift
      have hstep : (b <<< (56 - s.bits_in_buffer)) <<< 8 = b <<< (64 - s.bits_in_buffer) := by
        rw [← Nat.shiftLeft_add]
        congr 1
        omega
      have hlt : b <<< (64 - s.bits_in_buffer) < U64 :=
        Nat.lt_of_lt_of_le (shiftLeft_lt _ hb')
          (by unfold U64; exact Nat.pow_le_pow_right (by omega) (by omega))
      simp only [wrapShl, Nat.mod_self, Nat.mod_eq_of_lt (show (8:Nat) < 64 by omega)]
      rw [or_shiftLeft_distrib, or_mod_U64, hstep, Nat.mod_eq_of_lt hlt]
  case littleEndian =>
    have hins : wrapShl b s.bits_in_buffer = b <<< s.bits_in_buffer :=
      wrapShl_eq_shiftLeft _ hb' (by omega) (by omega)
    have hins2 : wrapShl b (s.bits_in_buffer - 8) = b <<< (s.bits_in_buffer - 8) :=
      wrapShl_eq_shiftLeft _ hb' (by omega) (by omega)
    simp only [insertByteW, drainStep, horder, hins, hins2, WState.mk.injEq]
    refine ⟨trivial, ?_, ?_, by omega⟩
    · -- emitted byte: the insertion has no bits below position 8
      have hz : (b <<< s.bits_in_buffer) % 2 ^ 8 = 0 :=
        shiftLeft_mod_two_pow_eq_zero (by omega)
      have : (s.bits_buffer ||| b <<< s.bits_in_buffer) % 2 ^ 8 =
          s.bits_buffer % 2 ^ 8 ||| (b <<< s.bits_in_buffer) % 2 ^ 8 := by
        refine Nat.eq_of_testBit_eq fun i => ?_
        simp only [Nat.testBit_mod_two_pow, Nat.testBit_or]
        by_cases h : i < 8 <;> simp [h]
      rw [show ((256:Nat) = 2 ^ 8) from rfl, this, hz]
      simp
    · -- registers agree after the right shift
      rw [or_shiftRight_distrib, shiftLeft_shiftRight_cancel (by omega)]
end Bitio

namespace Bitio

theorem foldl_insertByteW_meta : ∀ (bs : List Nat) (s : WState),
    (bs.foldl insertByteW s).bits_in_buffer = s.bits_in_buffer + 8 * bs.length ∧
    (bs.foldl insertByteW s).byteOrder = s.byteOrder ∧
    (bs.foldl insertByteW s).output = s.output
  | [], s => by simp
  | b :: tl, s => by
      have ih := foldl_insertByteW_meta tl (insertByteW s b)
      have hm := insertByteW_meta s b
      simp only [List.foldl_cons, List.length_cons] at ih ⊢
      rw [ih.1, ih.2.1, ih.2.2, hm.1, hm.2.1, hm.2.2]
      exact ⟨by omega, rfl, rfl⟩

theorem foldl_insert_drainStep_comm : ∀ (bs : List Nat) (s : WState),
    (∀ b ∈ bs, b < 256) → 8 ≤ s.bits_in_buffer →
    s.bits_in_buffer + 8 * bs.length ≤ 64 →
    bs.foldl insertByteW (drainStep s) = drainStep (bs.foldl insertByteW s)
  | [], _, _, _, _ => rfl
  | b :: tl, s, hb, h8, hcap => by
      simp only [List.length_cons] at hcap
      simp only [List.foldl_cons]
      rw [insertByteW_drainStep_comm s b (hb b (by simp)) h8 (by omega)]
      exact foldl_insert_drainStep_comm tl (insertByteW s b)
        (fun x hx => hb x (by simp [hx]))
        (by rw [(insertByteW_meta s b).1]; omega)
        (by rw [(insertByteW_meta s b).1]; omega)

theorem writeAligned_of_lt {s : WState} (h : s.bits_in_buffer < 8) :
    writeAlignedBytesToInner s = s := by
  unfold writeAlignedBytesToInner
  have h0 : s.bits_in_buffer / 8 = 0 := by omega
  rw [h0]
  rfl

theorem writeAligned_drainStep {s : WState} (h : 8 ≤ s.bits_in_buffer) :
    writeAlignedBytesToInner s = writeAlignedBytesToInner (drainStep s) := by
  conv_lhs => rw [writeAlignedBytesToInner]
  have hd : s.bits_in_buffer / 8 = (drainStep s).bits_in_buffer / 8 + 1 := by
    rw [drainStep_cnt]; omega
  rw [hd, drainSteps, if_pos h]
  rfl

theorem writeAligned_insert_dist_aux : ∀ (m : Nat) (u : WState) (bs : List Nat),
    u.bits_in_buffer ≤ 8 * m + 7 →
    (∀ b ∈ bs, b < 256) →
    u.bits_in_buffer + 8 * bs.length ≤ 64 →
    writeAlignedBytesToInner (bs.foldl insertByteW u) =
      writeAlignedBytesToInner (bs.foldl insertByteW (writeAlignedBytesToInner u))
  | 0, u, bs, hm, _, _ => by
      rw [writeAligned_of_lt (show u.bits_in_buffer < 8 by omega)]
  | m + 1, u, bs, hm, hb, hcap => by
      by_cases h8 : 8 ≤ u.bits_in_buffer
      · have hmeta := foldl_insertByteW_meta bs u
        have h8b : 8 ≤ (bs.foldl insertByteW u).bits_in_buffer := by
          rw [hmeta.1]; omega
        rw [writeAligned_drainStep h8b, ← foldl_insert_drainStep_comm bs u hb h8 hcap,
          writeAligned_insert_dist_aux m (drainStep u) bs
            (by rw [drainStep_cnt]; omega) hb (by rw [drainStep_cnt]; omega),
          ← writeAligned_drainStep h8]
      · rw [writeAligned_of_lt (by omega : u.bits_in_buffer < 8)]

theorem writeAligned_insert_dist (u : WState) (bs : List Nat)
    (hb : ∀ b ∈ bs, b < 256) (hcap : u.bits_in_buffer + 8 * bs.length ≤ 64) :
    writeAlignedBytesToInner (bs.foldl insertByteW u) =
      writeAlignedBytesToInner (bs.foldl insertByteW (writeAlignedBytesToInner u)) :=
  writeAligned_insert_dist_aux 8 u bs (by omega) hb hcap

theorem writeAligned_insert_foldl : ∀ (bs : List Nat) (s : WState),
    s.bits_in_buffer < 8 → (∀ b ∈ bs, b < 256) →
    s.bits_in_buffer + 8 * bs.length ≤ 64 →
    writeAlignedBytesToInner (bs.foldl insertByteW s) =
      bs.foldl (fun t b => writeAlignedBytesToInner (insertByteW t b)) s
  | [], s, h8, _, _ => writeAligned_of_lt h8
  | b :: tl, s, h8, hb, hcap => by
      simp only [List.length_cons] at hcap
      simp only [List.foldl_cons]
      rw [writeAligned_insert_dist (insertByteW s b) tl
        (fun x hx => hb x (by simp [hx]))
        (by rw [(insertByteW_meta s b).1]; omega)]
      exact writeAligned_insert_foldl tl (writeAlignedBytesToInner (insertByteW s b))
        (writeAligned_cnt_lt _) (fun x hx => hb x (by simp [hx]))
        (by rw [writeAligned_cnt, (insertByteW_meta s b).1]; omega)

end Bitio

namespace Bitio

theorem writeBitsLoop_zero : ∀ (fuel val : Nat) (s : WState),
    writeBitsLoop fuel val 0 s = s
  | 0, _, _ => rfl
  | fuel + 1, val, s => by
      rw [writeBitsLoop, if_neg (show ¬((0 : Nat) > 0) by omega)]

theorem writeBits_byte_eq (t : WState) (b : Nat) (hb : b < 256)
    (h8 : t.bits_in_buffer < 8) :
    writeBits b 8 t = (.ok (), writeAlignedBytesToInner (insertByteW t b)) := by
  have hval : b &&& ((1 <<< 8) - 1) = b := by
    have h255 : ((1 <<< 8) - 1 : Nat) = 2 ^ 8 - 1 := rfl
    rw [h255, Nat.and_pow_two_sub_one_eq_mod, Nat.mod_eq_of_lt hb]
  have hav : usizeSub 64 t.bits_in_buffer = 64 - t.bits_in_buffer :=
    @usizeSub_small 64 t.bits_in_buffer (by omega) (by omega)
  have hmin : min 8 (64 - t.bits_in_buffer) = 8 := by omega
  have hsh : usizeSub (64 - t.bits_in_buffer) 8 = 56 - t.bits_in_buffer := by
    rw [@usizeSub_small (64 - t.bits_in_buffer) 8 (by omega) (by omega)]
    omega
  have hsh2 : usizeSub 56 t.bits_in_buffer = 56 - t.bits_in_buffer :=
    @usizeSub_small 56 t.bits_in_buffer (by omega) (by omega)
  rw [writeBits]
  simp only [show ((8 : Nat) == 0 || decide ((8 : Nat) > 64)) = false from rfl,
    Bool.false_eq_true, if_false, show ((8 : Nat) == 64) = false from rfl, hval]
  rw [show (130 : Nat) = 129 + 1 from rfl, writeBitsLoop]
  rw [if_pos (show (8 : Nat) > 0 by omega)]
  dsimp only
  rw [hav, hmin]
  simp only [Nat.sub_self, wrapShr, Nat.zero_mod, Nat.shiftRight_zero, hsh]
  rw [if_neg (show ¬((0 : Nat) > 0) by omega)]
  rw [if_pos (show (decide (8 ≤ t.bits_in_buffer + 8) || ((8 - 8 : Nat) == 0)) = true
    by simp)]
  rw [writeBitsLoop_zero]
  simp only [insertByteW, hsh2]

end Bitio

namespace Bitio

theorem writeFoldBytes_foldl : ∀ (bs : List Nat) (s : WState),
    { s with bits_buffer := writeFoldBytes s.byteOrder bs s.bits_in_buffer s.bits_buffer,
             bits_in_buffer := s.bits_in_buffer + 8 * bs.length } =
      bs.foldl insertByteW s
  | [], s => by simp [writeFoldBytes]
  | b :: tl, s => by
      simp only [writeFoldBytes, List.foldl_cons, List.length_cons]
      rw [← writeFoldBytes_foldl tl (insertByteW s b)]
      simp only [insertByteW]
      congr 1
      omega

theorem foldl_writeBits_byte : ∀ (bs : List Nat) (s : WState),
    s.bits_in_buffer < 8 → (∀ b ∈ bs, b < 256) →
    bs.foldl (fun t b => (writeBits b 8 t).2) s =
      bs.foldl (fun t b => writeAlignedBytesToInner (insertByteW t b)) s
  | [], _, _, _ => rfl
  | b :: tl, s, h8, hb => by
      simp only [List.foldl_cons, writeBits_byte_eq s b (hb b (by simp)) h8]
      exact foldl_writeBits_byte tl _ (writeAligned_cnt_lt _)
        (fun x hx => hb x (by simp [hx]))

/-- Claim C4 amended: with a sub-byte residue buffered and a buffer that fits
the accumulator's free capacity (`buf.len ≤ (64 - occupancy)/8`, i.e. at most
7 bytes), the byte passthrough `write(buf)` is observationally equal to
calling `write_bits(byte, 8)` for each byte of `buf` in order — identical
sink output, identical final accumulator, and all bytes reported written.
(For longer buffers the tail is written raw to the sink ahead of the
still-buffered bits, see the counterexample.) -/
theorem claim_C4_amended_capacity_equivalence (s : WState) (buf : List Nat)
    (h0 : 0 < s.bits_in_buffer) (h8 : s.bits_in_buffer < 8)
    (hb : ∀ b ∈ buf, b < 256)
    (hlen : buf.length ≤ (64 - s.bits_in_buffer) / 8) :
    writePassthrough buf s =
      (.ok buf.length, buf.foldl (fun t b => (writeBits b 8 t).2) s) := by
  have hcap : s.bits_in_buffer + 8 * buf.length ≤ 64 := by omega
  have hav : usizeSub 64 s.bits_in_buffer = 64 - s.bits_in_buffer :=
    @usizeSub_small 64 s.bits_in_buffer (by omega) (by omega)
  rw [writePassthrough, writeAligned_of_lt h8]
  rw [if_neg (show ¬((s.bits_in_buffer == 0) = true) by simp; omega)]
  dsimp only
  rw [hav]
  have hmin : (64 - s.bits_in_buffer) / 8 ⊓ buf.length = buf.length :=
    Nat.min_eq_right hlen
  rw [hmin, List.take_of_length_le (Nat.le_refl _), writeFoldBytes_foldl buf s,
    if_neg (show ¬(buf.length < buf.length) by omega)]
  rw [writeAligned_insert_foldl buf s h8 hb hcap, foldl_writeBits_byte buf s h8 hb]

/-- Witness for the amended C4: 3-bit residue, two bytes folded through. -/
theorem claim_C4_amended_capacity_equivalence_witness :
    (0 < ((writeBits 5 3 BitWriter.new).2).bits_in_buffer ∧
      ((writeBits 5 3 BitWriter.new).2).bits_in_buffer < 8 ∧
      (∀ b ∈ [0xAB, 0xCD], b < 256) ∧
      ([0xAB, 0xCD] : List Nat).length ≤
        (64 - ((writeBits 5 3 BitWriter.new).2).bits_in_buffer) / 8) ∧
    writePassthrough [0xAB, 0xCD] (writeBits 5 3 BitWriter.new).2 =
      (.ok 2, [0xAB, 0xCD].foldl (fun t b => (writeBits b 8 t).2)
        (writeBits 5 3 BitWriter.new).2) :=
  ⟨⟨by decide, by decide, by decide, by decide⟩,
    claim_C4_amended_capacity_equivalence (writeBits 5 3 BitWriter.new).2 [0xAB, 0xCD]
      (by decide) (by decide) (by decide) (by decide)⟩

end Bitio

namespace Bitio

-- ----------------------------- Claim C8 ----------------------------- --

theorem u32Sub_small {a b : Nat} (hb : b ≤ a) (ha : a ≤ 64) : u32Sub a b = a - b := by
  have h : U32 = 4294967296 := rfl
  simp only [u32Sub, h]
  omega

theorem mergeByte_eq_big {s : RState} (horder : s.byteOrder = .bigEndian) (b : Nat)
    (hcnt : s.bits_in_buffer + 8 ≤ 64) (hb : b < 256) :
    mergeByte s b = { s with
      bits_buffer := s.bits_buffer ||| b <<< (56 - s.bits_in_buffer),
      bits_in_buffer := s.bits_in_buffer + 8 } := by
  have h1 : s.bits_in_buffer % U32 = s.bits_in_buffer :=
    Nat.mod_eq_of_lt (Nat.lt_of_le_of_lt (show s.bits_in_buffer ≤ 64 by omega) (by decide))
  have h648 : u32Sub 64 8 = 56 := by decide
  have h2 : u32Sub 56 s.bits_in_buffer = 56 - s.bits_in_buffer :=
    @u32Sub_small 56 s.bits_in_buffer (by omega) (by omega)
  have h3 : wrapShl b (56 - s.bits_in_buffer) = b <<< (56 - s.bits_in_buffer) :=
    wrapShl_eq_shiftLeft _ (show b < 2 ^ 8 from hb) (by omega) (by omega)
  have hmin : min (s.bits_in_buffer + 8) 64 = s.bits_in_buffer + 8 := by omega
  simp only [mergeByte, horder, h1, h648, h2, h3, hmin]

theorem mergeByte_eq_little {s : RState} (horder : s.byteOrder = .littleEndian) (b : Nat)
    (hcnt : s.bits_in_buffer + 8 ≤ 64) (hb : b < 256) :
    mergeByte s b = { s with
      bits_buffer := s.bits_buffer ||| b <<< s.bits_in_buffer,
      bits_in_buffer := s.bits_in_buffer + 8 } := by
  have h1 : s.bits_in_buffer % U32 = s.bits_in_buffer :=
    Nat.mod_eq_of_lt (Nat.lt_of_le_of_lt (show s.bits_in_buffer ≤ 64 by omega) (by decide))
  have h3 : wrapShl b s.bits_in_buffer = b <<< s.bits_in_buffer :=
    wrapShl_eq_shiftLeft _ (show b < 2 ^ 8 from hb) (by omega) (by omega)
  have hmin : min (s.bits_in_buffer + 8) 64 = s.bits_in_buffer + 8 := by omega
  simp only [mergeByte, horder, h1, h3, hmin]

theorem assembleBig_go : ∀ (l : List Nat) (acc : Nat),
    l.foldl (fun v b => (v <<< 8) ||| b) acc =
      (acc <<< (8 * l.length)) ||| assembleBig l
  | [], acc => by simp [assembleBig]
  | b :: tl, acc => by
      have h1 := assembleBig_go tl ((acc <<< 8) ||| b)
      have h2 := assembleBig_go tl b
      have hcons : assembleBig (b :: tl) = (b <<< (8 * tl.length)) ||| assembleBig tl := by
        simp only [assembleBig, List.foldl_cons, Nat.zero_shiftLeft, Nat.zero_or]
        exact h2
      simp only [List.foldl_cons, List.length_cons, hcons]
      rw [h1, or_shiftLeft_distrib, ← Nat.shiftLeft_add, Nat.or_assoc]
      congr 2
      omega

theorem assembleBig_cons (b : Nat) (tl : List Nat) :
    assembleBig (b :: tl) = (b <<< (8 * tl.length)) ||| assembleBig tl := by
  simp only [assembleBig, List.foldl_cons, Nat.zero_shiftLeft, Nat.zero_or]
  exact assembleBig_go tl b

theorem assembleBig_lt : ∀ (l : List Nat), (∀ b ∈ l, b < 256) →
    assembleBig l < 2 ^ (8 * l.length)
  | [], _ => by simp [assembleBig]
  | b :: tl, hb => by
      rw [assembleBig_cons]
      have h1 : b <<< (8 * tl.length) < 2 ^ (8 + 8 * tl.length) :=
        shiftLeft_lt _ (hb b (by simp))
      have h2 : assembleBig tl < 2 ^ (8 * tl.length) :=
        assembleBig_lt tl (fun x hx => hb x (by simp [hx]))
      have h3 : 8 * (b :: tl).length = 8 + 8 * tl.length := by
        simp [List.length_cons]
        omega
      rw [h3]
      exact Nat.or_lt_two_pow h1
        (Nat.lt_of_lt_of_le h2 (Nat.pow_le_pow_right (by omega) (by omega)))

theorem assembleLittleGo_acc : ∀ (l : List Nat) (acc i : Nat),
    assembleLittleGo acc i l = acc ||| assembleLittleGo 0 i l
  | [], acc, i => by simp [assembleLittleGo]
  | b :: tl, acc, i => by
      simp only [assembleLittleGo]
      rw [assembleLittleGo_acc tl (acc ||| b <<< (i * 8)),
        assembleLittleGo_acc tl (0 ||| b <<< (i * 8)), Nat.zero_or, Nat.or_assoc]

theorem assembleLittleGo_succ : ∀ (l : List Nat) (i : Nat),
    assembleLittleGo 0 (i + 1) l = (assembleLittleGo 0 i l) <<< 8
  | [], i => by simp [assembleLittleGo]
  | b :: tl, i => by
      simp only [assembleLittleGo, Nat.zero_or]
      rw [assembleLittleGo_acc tl (b <<< ((i + 1) * 8)),
        assembleLittleGo_acc tl (b <<< (i * 8)), assembleLittleGo_succ tl (i + 1),
        or_shiftLeft_distrib, ← Nat.shiftLeft_add]
      congr 2
      omega

theorem assembleLittle_cons (b : Nat) (tl : List Nat) :
    assembleLittle (b :: tl) = b ||| (assembleLittle tl <<< 8) := by
  simp only [assembleLittle, assembleLittleGo, Nat.zero_or, Nat.zero_mul,
    Nat.shiftLeft_zero]
  rw [assembleLittleGo_acc tl b, assembleLittleGo_succ tl 0]

theorem assembleLittle_lt : ∀ (l : List Nat), (∀ b ∈ l, b < 256) →
    assembleLittle l < 2 ^ (8 * l.length)
  | [], _ => by simp [assembleLittle, assembleLittleGo]
  | b :: tl, hb => by
      rw [assembleLittle_cons]
      have h2 : assembleLittle tl < 2 ^ (8 * tl.length) :=
        assembleLittle_lt tl (fun x hx => hb x (by simp [hx]))
      have h1 : assembleLittle tl <<< 8 < 2 ^ (8 * tl.length + 8) := shiftLeft_lt _ h2
      have h3 : 8 * (b :: tl).length = 8 * tl.length + 8 := by
        simp [List.length_cons]
        omega
      have hbb : b < 2 ^ 8 := hb b (by simp)
      rw [h3]
      exact Nat.or_lt_two_pow
        (Nat.lt_of_lt_of_le hbb (Nat.pow_le_pow_right (by omega) (by omega))) h1

end Bitio

namespace Bitio

theorem mergeFold_big : ∀ (l : List Nat) (s : RState),
    s.byteOrder = .bigEndian → s.bits_in_buffer + 8 * l.length ≤ 64 →
    (∀ b ∈ l, b < 256) →
    (l.foldl mergeByte s).bits_buffer =
      s.bits_buffer ||| (assembleBig l <<< (64 - s.bits_in_buffer - 8 * l.length))
  | [], s, _, _, _ => by simp [assembleBig]
  | b :: tl, s, ho, hcap, hb => by
      simp only [List.length_cons] at hcap
      simp only [List.foldl_cons, List.length_cons]
      rw [mergeByte_eq_big ho b (by omega) (hb b (by simp))]
      have hrec : (List.foldl mergeByte
          { s with bits_buffer := s.bits_buffer ||| b <<< (56 - s.bits_in_buffer),
                   bits_in_buffer := s.bits_in_buffer + 8 } tl).bits_buffer =
          (s.bits_buffer ||| b <<< (56 - s.bits_in_buffer)) |||
            (assembleBig tl <<< (64 - (s.bits_in_buffer + 8) - 8 * tl.length)) :=
        mergeFold_big tl _ ho
          (show s.bits_in_buffer + 8 + 8 * tl.length ≤ 64 by omega)
          (fun x hx => hb x (by simp [hx]))
      rw [hrec]
      rw [assembleBig_cons, or_shiftLeft_distrib, ← Nat.shiftLeft_add]
      have e1 : 8 * tl.length + (64 - s.bits_in_buffer - 8 * (tl.length + 1)) =
          56 - s.bits_in_buffer := by omega
      have e2 : 64 - (s.bits_in_buffer + 8) - 8 * tl.length =
          64 - s.bits_in_buffer - 8 * (tl.length + 1) := by omega
      rw [e1, e2, Nat.or_assoc]

theorem mergeFold_little : ∀ (l : List Nat) (s : RState),
    s.byteOrder = .littleEndian → s.bits_in_buffer + 8 * l.length ≤ 64 →
    (∀ b ∈ l, b < 256) →
    (l.foldl mergeByte s).bits_buffer =
      s.bits_buffer ||| (assembleLittle l <<< s.bits_in_buffer)
  | [], s, _, _, _ => by simp [assembleLittle, assembleLittleGo]
  | b :: tl, s, ho, hcap, hb => by
      simp only [List.length_cons] at hcap
      simp only [List.foldl_cons]
      rw [mergeByte_eq_little ho b (by omega) (hb b (by simp))]
      have hrec : (List.foldl mergeByte
          { s with bits_buffer := s.bits_buffer ||| b <<< s.bits_in_buffer,
                   bits_in_buffer := s.bits_in_buffer + 8 } tl).bits_buffer =
          (s.bits_buffer ||| b <<< s.bits_in_buffer) |||
            (assembleLittle tl <<< (s.bits_in_buffer + 8)) :=
        mergeFold_little tl _ ho
          (show s.bits_in_buffer + 8 + 8 * tl.length ≤ 64 by omega)
          (fun x hx => hb x (by simp [hx]))
      rw [hrec]
      rw [assembleLittle_cons, or_shiftLeft_distrib, ← Nat.shiftLeft_add]
      have e1 : 8 + s.bits_in_buffer = s.bits_in_buffer + 8 := by omega
      rw [e1, Nat.or_assoc]

end Bitio

namespace Bitio

theorem fastFillLoopAux_done : ∀ (order : ByteOrder) (n fuel : Nat) (f : FastState),
    ¬ f.bits_available < n → fastFillLoopAux order n fuel f = (.ok (), f)
  | _, _, 0, _, _ => rfl
  | order, n, fuel + 1, f, h => by
      rw [fastFillLoopAux, if_neg h]

theorem fill_equiv (n : Nat) (s : RState) (f : FastState)
    (hrel : relRF s f) (hwf : wfR s) (hn : 1 ≤ n) (hn64 : n ≤ 64)
    (hcap : capOk s.bits_in_buffer n = true) :
    (putIntoBitsBuffer n s).1 = (fastFillLoop s.byteOrder n f).1 ∧
    relRF (putIntoBitsBuffer n s).2 (fastFillLoop s.byteOrder n f).2 ∧
    wfR (putIntoBitsBuffer n s).2 ∧
    (putIntoBitsBuffer n s).2.byteOrder = s.byteOrder ∧
    ((putIntoBitsBuffer n s).1 = .ok () →
      n ≤ (putIntoBitsBuffer n s).2.bits_in_buffer) := by
  obtain ⟨hinp, hbuf, hcnt⟩ := hrel
  obtain ⟨hwf1, hwf2, hwf3⟩ := hwf
  simp only [capOk, decide_eq_true_eq] at hcap
  obtain ⟨m, rfl⟩ : ∃ m, n = m + 1 := ⟨n - 1, by omega⟩
  by_cases hge : m + 1 ≤ s.bits_in_buffer
  · have hbn : bytesNeededFor (m + 1) s = 0 := by
      rw [bytesNeededFor_eq s hwf1]
      omega
    rw [putInto_noop hbn]
    have hf : fastFillLoop s.byteOrder (m + 1) f = (.ok (), f) := by
      unfold fastFillLoop
      exact fastFillLoopAux_done _ _ _ f (by omega)
    rw [hf]
    exact ⟨rfl, ⟨hinp, hbuf, hcnt⟩, ⟨hwf1, hwf2, hwf3⟩, rfl, fun _ => hge⟩
  · have hlt : s.bits_in_buffer < m + 1 := by omega
    have hbn : bytesNeededFor (m + 1) s = (m + 1 - s.bits_in_buffer + 7) / 8 := by
      rw [bytesNeededFor_eq s hwf1]
      omega
    have hbn1 : 1 ≤ (m + 1 - s.bits_in_buffer + 7) / 8 := by omega
    have hbn8 : 8 * ((m + 1 - s.bits_in_buffer + 7) / 8) ≤ 64 - s.bits_in_buffer := by
      omega
    have hneed : max (min ((m + 1 - f.bits_available + 7) / 8)
        ((64 - f.bits_available) / 8)) 1 = (m + 1 - s.bits_in_buffer + 7) / 8 := by
      rw [← hcnt]
      omega
    by_cases hlen : s.input.length < (m + 1 - s.bits_in_buffer + 7) / 8
    · -- both sides hit end of stream and empty the source
      have hshort : putIntoBitsBuffer (m + 1) s =
          (.error .unexpectedEof, { s with input := [] }) :=
        putIntoBitsBuffer_short (by rw [hbn]; omega)
      have hf : fastFillLoop s.byteOrder (m + 1) f =
          (.error .unexpectedEof, { f with input := [] }) := by
        unfold fastFillLoop
        rw [fastFillLoopAux, if_pos (show f.bits_available < m + 1 by omega)]
        dsimp only
        rw [hneed, if_pos (by rw [← hinp]; omega)]
      rw [hshort, hf]
      refine ⟨rfl, ⟨rfl, hbuf, hcnt⟩, ⟨hwf1, hwf2, by simp⟩, rfl, fun hc => ?_⟩
      exact absurd hc (by simp)
    · -- both sides pull the same burst of bytes
      have hlen2 : ((m + 1 - s.bits_in_buffer + 7) / 8) ≤ s.input.length := by omega
      have hput : putIntoBitsBuffer (m + 1) s = (.ok (),
          (s.input.take ((m + 1 - s.bits_in_buffer + 7) / 8)).foldl mergeByte
            { s with input := s.input.drop ((m + 1 - s.bits_in_buffer + 7) / 8) }) := by
        rw [putIntoBitsBuffer]
        rw [if_pos (show bytesNeededFor (m + 1) s > 0 by rw [hbn]; omega)]
        rw [hbn, Nat.min_eq_left hlen2]
        rw [if_neg (show ¬ (((m + 1 - s.bits_in_buffer + 7) / 8) < ((m + 1 - s.bits_in_buffer + 7) / 8)) by omega)]
      have htake : (s.input.take ((m + 1 - s.bits_in_buffer + 7) / 8)).length = ((m + 1 - s.bits_in_buffer + 7) / 8) := by
        simp [List.length_take]
        omega
      have htb : ∀ b ∈ s.input.take ((m + 1 - s.bits_in_buffer + 7) / 8), b < 256 :=
        fun b hbmem => hwf3 b (List.take_subset _ _ hbmem)
      have hmeta : ((s.input.take ((m + 1 - s.bits_in_buffer + 7) / 8)).foldl mergeByte
            { s with input := s.input.drop ((m + 1 - s.bits_in_buffer + 7) / 8) }).bits_in_buffer =
            s.bits_in_buffer + 8 * ((m + 1 - s.bits_in_buffer + 7) / 8) ∧
          ((s.input.take ((m + 1 - s.bits_in_buffer + 7) / 8)).foldl mergeByte
            { s with input := s.input.drop ((m + 1 - s.bits_in_buffer + 7) / 8) }).byteOrder = s.byteOrder ∧
          ((s.input.take ((m + 1 - s.bits_in_buffer + 7) / 8)).foldl mergeByte
            { s with input := s.input.drop ((m + 1 - s.bits_in_buffer + 7) / 8) }).input = s.input.drop ((m + 1 - s.bits_in_buffer + 7) / 8) := by
        have h0 := foldl_mergeByte_meta (s.input.take ((m + 1 - s.bits_in_buffer + 7) / 8))
          { s with input := s.input.drop ((m + 1 - s.bits_in_buffer + 7) / 8) }
          (show s.bits_in_buffer + 8 * (s.input.take ((m + 1 - s.bits_in_buffer + 7) / 8)).length ≤ 64 by
            rw [htake]; omega)
        rw [htake] at h0
        exact h0
      cases horder : s.byteOrder
      · -- bigEndian
        have hf : fastFillLoop ByteOrder.bigEndian (m + 1) f = (.ok (),
            { input := f.input.drop ((m + 1 - s.bits_in_buffer + 7) / 8)
              buffer := f.buffer |||
                wrapShl (assembleBig (f.input.take ((m + 1 - s.bits_in_buffer + 7) / 8)))
                  (usizeSub (usizeSub 64 f.bits_available) (((m + 1 - s.bits_in_buffer + 7) / 8) * 8) % U32)
              bits_available := f.bits_available + ((m + 1 - s.bits_in_buffer + 7) / 8) * 8 }) := by
          unfold fastFillLoop
          rw [fastFillLoopAux, if_pos (show f.bits_available < m + 1 by omega)]
          dsimp only
          rw [hneed, if_neg (by rw [← hinp]; omega)]
          exact fastFillLoopAux_done _ _ _ _
            (show ¬ f.bits_available + ((m + 1 - s.bits_in_buffer + 7) / 8) * 8 < m + 1 by omega)
        rw [hput, hf]
        have hlen3 : (f.input.take ((m + 1 - s.bits_in_buffer + 7) / 8)).length = ((m + 1 - s.bits_in_buffer + 7) / 8) := by
          rw [← hinp]
          exact htake
        have hfb : ∀ b ∈ f.input.take ((m + 1 - s.bits_in_buffer + 7) / 8), b < 256 := by
          rw [← hinp]
          exact htb
        have hmb : (List.foldl mergeByte { s with input := s.input.drop ((m + 1 - s.bits_in_buffer + 7) / 8) }
            (s.input.take ((m + 1 - s.bits_in_buffer + 7) / 8))).bits_buffer =
            s.bits_buffer ||| (assembleBig (s.input.take ((m + 1 - s.bits_in_buffer + 7) / 8)) <<< (64 - s.bits_in_buffer - 8 * ((m + 1 - s.bits_in_buffer + 7) / 8))) := by
          have hcap2 : s.bits_in_buffer + 8 * (s.input.take ((m + 1 - s.bits_in_buffer + 7) / 8)).length ≤ 64 := by
            rw [htake]
            omega
          have h0 := mergeFold_big (s.input.take ((m + 1 - s.bits_in_buffer + 7) / 8))
            { s with input := s.input.drop ((m + 1 - s.bits_in_buffer + 7) / 8) } horder hcap2 htb
          rw [htake] at h0
          exact h0
        refine ⟨rfl, ⟨?_, ?_, ?_⟩, ⟨?_, ?_, ?_⟩, ?_, fun _ => ?_⟩
        · rw [hmeta.2.2, hinp]
        · rw [hmb]
          have hu1 : usizeSub 64 f.bits_available = 64 - s.bits_in_buffer := by
            rw [← hcnt]
            exact @usizeSub_small 64 s.bits_in_buffer (by omega) (by omega)
          have hu2 : usizeSub (64 - s.bits_in_buffer) (((m + 1 - s.bits_in_buffer + 7) / 8) * 8) =
              64 - s.bits_in_buffer - 8 * ((m + 1 - s.bits_in_buffer + 7) / 8) := by
            rw [@usizeSub_small (64 - s.bits_in_buffer) (((m + 1 - s.bits_in_buffer + 7) / 8) * 8) (by omega) (by omega)]
            omega
          have hmod : 64 - s.bits_in_buffer - 8 * ((m + 1 - s.bits_in_buffer + 7) / 8) < U32 :=
            Nat.lt_of_le_of_lt (show 64 - s.bits_in_buffer - 8 * ((m + 1 - s.bits_in_buffer + 7) / 8) ≤ 64 by omega)
              (by decide)
          have hlt := assembleBig_lt (f.input.take ((m + 1 - s.bits_in_buffer + 7) / 8)) hfb
          rw [hlen3] at hlt
          have hw : wrapShl (assembleBig (f.input.take ((m + 1 - s.bits_in_buffer + 7) / 8)))
              (64 - s.bits_in_buffer - 8 * ((m + 1 - s.bits_in_buffer + 7) / 8)) =
              assembleBig (f.input.take ((m + 1 - s.bits_in_buffer + 7) / 8)) <<< (64 - s.bits_in_buffer - 8 * ((m + 1 - s.bits_in_buffer + 7) / 8)) :=
            wrapShl_eq_shiftLeft _ hlt (by omega) (by omega)
          rw [hu1, hu2, Nat.mod_eq_of_lt hmod, hw, hbuf, hinp]
        · rw [hmeta.1]
          show s.bits_in_buffer + 8 * ((m + 1 - s.bits_in_buffer + 7) / 8) = f.bits_available + ((m + 1 - s.bits_in_buffer + 7) / 8) * 8
          omega
        · rw [hmeta.1]
          omega
        · rw [hmb]
          refine or_lt_U64 hwf2 (Nat.lt_of_lt_of_le
            (shiftLeft_lt _ (assembleBig_lt _ htb)) ?_)
          rw [htake]
          unfold U64
          exact Nat.pow_le_pow_right (by omega) (by omega)
        · rw [hmeta.2.2]
          intro b hbmem
          exact hwf3 b (List.drop_subset _ _ hbmem)
        · rw [hmeta.2.1]
          exact horder
        · rw [hmeta.1]
          omega
      · -- littleEndian
        have hf : fastFillLoop ByteOrder.littleEndian (m + 1) f = (.ok (),
            { input := f.input.drop ((m + 1 - s.bits_in_buffer + 7) / 8)
              buffer := f.buffer |||
                wrapShl (assembleLittle (f.input.take ((m + 1 - s.bits_in_buffer + 7) / 8)))
                  (f.bits_available % U32)
              bits_available := f.bits_available + ((m + 1 - s.bits_in_buffer + 7) / 8) * 8 }) := by
          unfold fastFillLoop
          rw [fastFillLoopAux, if_pos (show f.bits_available < m + 1 by omega)]
          dsimp only
          rw [hneed, if_neg (by rw [← hinp]; omega)]
          exact fastFillLoopAux_done _ _ _ _
            (show ¬ f.bits_available + ((m + 1 - s.bits_in_buffer + 7) / 8) * 8 < m + 1 by omega)
        rw [hput, hf]
        have hlen3 : (f.input.take ((m + 1 - s.bits_in_buffer + 7) / 8)).length = ((m + 1 - s.bits_in_buffer + 7) / 8) := by
          rw [← hinp]
          exact htake
        have hfb : ∀ b ∈ f.input.take ((m + 1 - s.bits_in_buffer + 7) / 8), b < 256 := by
          rw [← hinp]
          exact htb
        have hmb : (List.foldl mergeByte { s with input := s.input.drop ((m + 1 - s.bits_in_buffer + 7) / 8) }
            (s.input.take ((m + 1 - s.bits_in_buffer + 7) / 8))).bits_buffer =
            s.bits_buffer ||| (assembleLittle (s.input.take ((m + 1 - s.bits_in_buffer + 7) / 8)) <<< s.bits_in_buffer) := by
          have hcap2 : s.bits_in_buffer + 8 * (s.input.take ((m + 1 - s.bits_in_buffer + 7) / 8)).length ≤ 64 := by
            rw [htake]
            omega
          have h0 := mergeFold_little (s.input.take ((m + 1 - s.bits_in_buffer + 7) / 8))
            { s with input := s.input.drop ((m + 1 - s.bits_in_buffer + 7) / 8) } horder hcap2 htb
          exact h0
        refine ⟨rfl, ⟨?_, ?_, ?_⟩, ⟨?_, ?_, ?_⟩, ?_, fun _ => ?_⟩
        · rw [hmeta.2.2, hinp]
        · rw [hmb]
          have hmod : f.bits_available % U32 = s.bits_in_buffer := by
            rw [← hcnt]
            exact Nat.mod_eq_of_lt (Nat.lt_of_le_of_lt hwf1 (by decide))
          have hlt := assembleLittle_lt (f.input.take ((m + 1 - s.bits_in_buffer + 7) / 8)) hfb
          rw [hlen3] at hlt
          have hw : wrapShl (assembleLittle (f.input.take ((m + 1 - s.bits_in_buffer + 7) / 8))) s.bits_in_buffer =
              assembleLittle (f.input.take ((m + 1 - s.bits_in_buffer + 7) / 8)) <<< s.bits_in_buffer :=
            wrapShl_eq_shiftLeft _ hlt (by omega) (by omega)
          rw [hmod, hw, hbuf, hinp]
        · rw [hmeta.1]
          show s.bits_in_buffer + 8 * ((m + 1 - s.bits_in_buffer + 7) / 8) = f.bits_available + ((m + 1 - s.bits_in_buffer + 7) / 8) * 8
          omega
        · rw [hmeta.1]
          omega
        · rw [hmb]
          refine or_lt_U64 hwf2 (Nat.lt_of_lt_of_le
            (shiftLeft_lt _ (assembleLittle_lt _ htb)) ?_)
          rw [htake]
          unfold U64
          exact Nat.pow_le_pow_right (by omega) (by omega)
        · rw [hmeta.2.2]
          intro b hbmem
          exact hwf3 b (List.drop_subset _ _ hbmem)
        · rw [hmeta.2.1]
          exact horder
        · rw [hmeta.1]
          omega

end Bitio

namespace Bitio

theorem readBits_equiv (n : Nat) (s : RState) (f : FastState)
    (hrel : relRF s f) (hwf : wfR s) (hn : 1 ≤ n) (hn64 : n ≤ 64)
    (hcap : capOk s.bits_in_buffer n = true) :
    (readBits n s).1 = (fastReadBits s.byteOrder n f).1 ∧
    relRF (readBits n s).2 (fastReadBits s.byteOrder n f).2 ∧
    wfR (readBits n s).2 ∧
    (readBits n s).2.byteOrder = s.byteOrder := by
  have hval : (n == 0 || decide (n > 64)) = false := by
    simp only [Bool.or_eq_false_iff, beq_eq_false_iff_ne, ne_eq, decide_eq_false_iff_not]
    omega
  obtain ⟨h1, h2, h3, h4, h5⟩ := fill_equiv n s f hrel hwf hn hn64 hcap
  rw [readBits, fastReadBits]
  simp only [hval, Bool.false_eq_true, if_false]
  rcases hfe : (putIntoBitsBuffer n s).1 with e | u
  · rw [hfe] at h1
    rw [← h1]
    exact ⟨rfl, h2, h3, h4⟩
  · rw [hfe] at h1
    rw [← h1]
    dsimp only
    obtain ⟨hi, hb, hc⟩ := h2
    obtain ⟨hw1, hw2, hw3⟩ := h3
    have hge : n ≤ (putIntoBitsBuffer n s).2.bits_in_buffer := h5 (by rw [hfe])
    have hus : usizeSub (fastFillLoop s.byteOrder n f).2.bits_available n =
        (fastFillLoop s.byteOrder n f).2.bits_available - n := by
      rw [usizeSub_small (by rw [← hc]; exact hge) (by rw [← hc]; exact hw1)]
    simp only [getFromBitsBuffer, if_true, h4, hb, hc, hus]
    refine ⟨trivial, ⟨hi, ?_, rfl⟩,
      ⟨show (fastFillLoop s.byteOrder n f).2.bits_available - n ≤ 64 by
          rw [← hc]; omega, ?_, hw3⟩, trivial⟩
    · by_cases h64 : n = 64
      · subst h64
        simp
      · have hne : (n == 64) = false := by simp [h64]
        have hlt64 : n < 64 := by omega
        simp [hne, hlt64]
    · by_cases h64 : n = 64
      · subst h64
        show (0 : Nat) < U64
        decide
      · have hne : (n == 64) = false := by simp [h64]
        show (if (n == 64) = true then 0
          else
            match s.byteOrder with
            | ByteOrder.bigEndian => wrapShl (fastFillLoop s.byteOrder n f).2.buffer n
            | ByteOrder.littleEndian => (fastFillLoop s.byteOrder n f).2.buffer >>> n) < U64
        simp only [hne, Bool.false_eq_true, if_false]
        cases horder2 : s.byteOrder
        · exact mod_U64_lt _
        · rw [horder2] at hb
          rw [hb] at hw2
          show (fastFillLoop ByteOrder.littleEndian n f).2.buffer >>> n < U64
          exact Nat.lt_of_le_of_lt
            (by rw [Nat.shiftRight_eq_div_pow]; exact Nat.div_le_self _ _) hw2

end Bitio

namespace Bitio

theorem trace_equiv : ∀ (ws : List Nat) (s : RState) (f : FastState),
    relRF s f → wfR s → goodWidths s ws = true →
    (readTrace s ws).1 = (fastTrace s.byteOrder f ws).1
  | [], _, _, _, _, _ => rfl
  | n :: ws, s, f, hrel, hwf, hg => by
      simp only [goodWidths, Bool.and_eq_true, decide_eq_true_eq] at hg
      obtain ⟨⟨⟨hn1, hn64⟩, hcap⟩, hrest⟩ := hg
      obtain ⟨h1, h2, h3, h4⟩ := readBits_equiv n s f hrel hwf hn1 hn64 hcap
      have ih := trace_equiv ws (readBits n s).2 (fastReadBits s.byteOrder n f).2 h2 h3 hrest
      rw [h4] at ih
      simp only [readTrace, fastTrace]
      rw [h1, ih]

/-- Claim C8 amended: the fast reader of a given order returns exactly the
same sequence of results as the general `BitReader` of that order on the
same input, provided every call's width fits the general reader's fill
capacity at the moment of the call (`n ≤ occupancy + 8*((64-occupancy)/8)`,
which always holds for `n ≤ 57` and for byte-aligned occupancy).  Outside
that region the two diverge, see the counterexample. -/
theorem claim_C8_amended_fast_matches_general_in_capacity (order : ByteOrder)
    (bytes : List Nat) (hbytes : ∀ b ∈ bytes, b < 256) (ws : List Nat)
    (hgood : goodWidths (BitReader.with_byte_order order bytes) ws = true) :
    (readTrace (BitReader.with_byte_order order bytes) ws).1 =
      (fastTrace order (FastState.new bytes) ws).1 :=
  trace_equiv ws (BitReader.with_byte_order order bytes) (FastState.new bytes)
    ⟨rfl, rfl, rfl⟩
    ⟨show (0 : Nat) ≤ 64 by omega, show (0 : Nat) < U64 by decide, hbytes⟩ hgood

/-- Witness for the amended C8: three bytes, widths 3, 8 and 5 (crossing a
byte boundary while staying within capacity), MSB-first. -/
theorem claim_C8_amended_fast_matches_general_in_capacity_witness :
    ((∀ b ∈ [0xAB, 0xCD, 0xEF], b < 256) ∧
      goodWidths (BitReader.with_byte_order .bigEndian [0xAB, 0xCD, 0xEF])
        [3, 8, 5] = true) ∧
    (readTrace (BitReader.with_byte_order .bigEndian [0xAB, 0xCD, 0xEF]) [3, 8, 5]).1 =
      (fastTrace .bigEndian (FastState.new [0xAB, 0xCD, 0xEF]) [3, 8, 5]).1 :=
  ⟨⟨by decide, by decide⟩,
    claim_C8_amended_fast_matches_general_in_capacity .bigEndian [0xAB, 0xCD, 0xEF]
      (by decide) [3, 8, 5] (by decide)⟩

end Bitio
